import Mathlib

/-!
Verification of the Thailotto aggregation pipeline (src/script.js and the
CSV-export script).  JavaScript strings are modelled as `List Char`, JS
objects used as dictionaries are modelled as insertion-ordered association
lists (`List (k × v)`), and JS `Date` values (always constructed from
`YYYY-MM-DD` + `T00:00` strings, and compared by timestamp) are modelled as
year/month/day triples ordered lexicographically.
-/

namespace Thailotto

/-- Shorthand for a JavaScript string. -/
abbrev Str := List Char

/-- Coerce a Lean string literal to the model representation. -/
def str (s : String) : Str := s.toList

/-! ## Generic string helpers (models of the JS string operations used) -/

/-- Whitespace test, covering the characters `\s` can match inside a single
line of ASCII input (space, tab, carriage return, vertical tab, form feed). -/
def isWsChar (c : Char) : Bool :=
  c = ' ' || c = '\t' || c = '\r' || c = '\x0b' || c = '\x0c'

/-- Model of `text.split(/\r?\n/)`: both `"\r\n"` and `"\n"` separate lines,
a lone `"\r"` does not. -/
def splitLines : Str → List Str
  | [] => [[]]
  | '\r' :: '\n' :: rest => [] :: splitLines rest
  | '\n' :: rest => [] :: splitLines rest
  | c :: rest =>
    match splitLines rest with
    | [] => [[c]]
    | h :: t => (c :: h) :: t

/-- Model of `String.prototype.trim` (drop whitespace from both ends). -/
def trim (l : Str) : Str :=
  ((l.dropWhile isWsChar).reverse.dropWhile isWsChar).reverse

/-- Helper for `wsTokens`: `cur` holds the (reversed) token being read. -/
def wsTokensAux : Str → Str → List Str
  | [], cur => if cur = [] then [] else [cur.reverse]
  | c :: rest, cur =>
    if isWsChar c then
      if cur = [] then wsTokensAux rest [] else cur.reverse :: wsTokensAux rest []
    else wsTokensAux rest (c :: cur)

/-- Model of `s.split(/\s+/)` for a trimmed string: the maximal runs of
non-whitespace characters.  (On a trimmed, non-empty string the JS split
produces exactly these tokens, with no empty fields.) -/
def wsTokens (l : Str) : List Str := wsTokensAux l []

/-- Model of `n.slice(-len)` for `len > 0`: the last `len` characters
(the whole string when it is shorter than `len`). -/
def lastN (l : Str) (n : Nat) : Str := l.drop (l.length - n)

/-- Model of `Array.prototype.join(sep)`. -/
def joinWith (sep : Str) : List Str → Str
  | [] => []
  | [x] => x
  | x :: xs => x ++ sep ++ joinWith sep xs

/-- Model of `s.split(c)` for a single separator character: every occurrence
separates, empty fields are kept. -/
def splitOnChar (c : Char) : Str → List Str
  | [] => [[]]
  | a :: rest =>
    if a = c then [] :: splitOnChar c rest
    else
      match splitOnChar c rest with
      | [] => [[a]]
      | h :: t => (a :: h) :: t

/-! ## Association lists: the model of JS objects used as dictionaries.
They hold an object's OWN properties: lookup is first-match in insertion
order, and assignment updates in place or appends a new key at the end.
JS property reads additionally consult the prototype chain; the one place
this matters (the `!prizesAgg[tag]` truthiness check of the parser, which an
input tag such as `toString` satisfies through `Object.prototype`) is
modelled separately by `processLineJS` below via `protoKeys`. -/

/-- `obj[k]`, as an `Option`. -/
def alLookup {K V : Type} [DecidableEq K] (k : K) : List (K × V) → Option V
  | [] => none
  | (k', v) :: rest => if k' = k then some v else alLookup k rest

/-- `obj[k] = v` (update in place if the key exists, append otherwise). -/
def alSet {K V : Type} [DecidableEq K] (k : K) (v : V) : List (K × V) → List (K × V)
  | [] => [(k, v)]
  | (k', v') :: rest =>
    if k' = k then (k', v) :: rest else (k', v') :: alSet k v rest

/-- Apply `f` to the value stored at `k` (no-op when the key is absent; the
source only does this behind an existence check). -/
def alModify {K V : Type} [DecidableEq K] (k : K) (f : V → V) :
    List (K × V) → List (K × V)
  | [] => []
  | (k', v) :: rest =>
    if k' = k then (k', f v) :: rest else (k', v) :: alModify k f rest

/-- Truthiness test `!!obj[k]` for object-valued entries. -/
def alContains {K V : Type} [DecidableEq K] (k : K) (l : List (K × V)) : Bool :=
  (alLookup k l).isSome

/-- Keys, in insertion order. -/
def alKeys {K V : Type} (l : List (K × V)) : List K := l.map (·.1)

/-! ## Calendar model.  All `Date` values in the source are local midnights
(`new Date('YYYY-MM-DDT00:00')`), compared numerically; a year/month/day
triple with lexicographic order is a faithful model. -/

structure YMD where
  y : Nat
  m : Nat
  d : Nat
  deriving DecidableEq, Repr

/-- Gregorian leap-year rule. -/
def isLeap (y : Nat) : Bool := (y % 4 = 0 && y % 100 ≠ 0) || y % 400 = 0

/-- Days in a month. -/
def daysInMonth (y m : Nat) : Nat :=
  if m = 2 then (if isLeap y then 29 else 28)
  else if m = 4 || m = 6 || m = 9 || m = 11 then 30
  else 31

/-- A real calendar date. -/
def validYMD (x : YMD) : Prop :=
  1 ≤ x.m ∧ x.m ≤ 12 ∧ 1 ≤ x.d ∧ x.d ≤ daysInMonth x.y x.m

instance : DecidablePred validYMD := fun x => by unfold validYMD; infer_instance

/-- Timestamp order on dates (lexicographic on y, m, d). -/
def ymdLe (a b : YMD) : Prop :=
  a.y < b.y ∨ (a.y = b.y ∧ (a.m < b.m ∨ (a.m = b.m ∧ a.d ≤ b.d)))

/-- Strict timestamp order on dates. -/
def ymdLt (a b : YMD) : Prop :=
  a.y < b.y ∨ (a.y = b.y ∧ (a.m < b.m ∨ (a.m = b.m ∧ a.d < b.d)))

instance : ∀ a b, Decidable (ymdLe a b) := fun a b => by unfold ymdLe; infer_instance

instance : ∀ a b, Decidable (ymdLt a b) := fun a b => by unfold ymdLt; infer_instance

/-- `d.setDate(d.getDate() + 1)`: step to the next calendar day. -/
def addOneDay (x : YMD) : YMD :=
  if x.d < daysInMonth x.y x.m then ⟨x.y, x.m, x.d + 1⟩
  else if x.m < 12 then ⟨x.y, x.m + 1, 1⟩
  else ⟨x.y + 1, 1, 1⟩

/-- A linear index dominating the calendar order; used only as a fuel bound
and as a monotone measure (372 > 31·12 + 31 and 31 > 31). -/
def ymdIdx (x : YMD) : Nat := 372 * x.y + 31 * x.m + x.d

/-! ## Global constants of the scripts -/

/-- `PRIZE_LIST`: the nine category tags. -/
def PRIZE_LIST : List Str :=
  [str "FIRST", str "SECOND", str "THIRD", str "FOURTH", str "FIFTH",
   str "TWO", str "THREE_FIRST", str "THREE_LAST", str "NEAR_FIRST"]

/-- `DRAW_DAYS`: the day-of-month allow-list. -/
def DRAW_DAYS : List Nat := [30, 31, 1, 2, 3, 14, 15, 16, 17]

/-- `FIXED_START`: the epoch `new Date('2006-12-30T00:00')`. -/
def FIXED_START : YMD := ⟨2006, 12, 30⟩

/-- `CACHE_TTL_MS = 24 * 60 * 60 * 1000`. -/
def CACHE_TTL_MS : Nat := 24 * 60 * 60 * 1000

/-- The per-tag value length:
`tag === 'TWO' ? 2 : tag.startsWith('THREE') ? 3 : 6`. -/
def jsLen (tag : Str) : Nat :=
  if tag = str "TWO" then 2 else if tag.take 5 = str "THREE" then 3 else 6

/-! ## Record Parser (`parseTextToAggregate`) -/

/-- The compact per-file aggregate `{ dateStr, prizesAgg, digitAgg, results }`:
per category a value→count map, per category one digit→count map per digit
position, and per category the raw comma-joined display string. -/
structure DrawAggregate where
  dateStr : Str
  prizesAgg : List (Str × List (Str × Nat))
  digitAgg : List (Str × List (List (Char × Nat)))
  results : List (Str × Str)
  deriving DecidableEq, Repr

/-- The initialisation loop: every category starts with an empty value map
and `len` empty positional digit maps; `results` starts empty. -/
def initAgg (dateStr : Str) : DrawAggregate :=
  { dateStr := dateStr
    prizesAgg := PRIZE_LIST.map fun p => (p, [])
    digitAgg := PRIZE_LIST.map fun p => (p, List.replicate (jsLen p) [])
    results := [] }

/-- `val.split('').forEach((d,i)=>{ digitAgg[tag][i][d]++ })`: bump one digit
map per position of `val`.  (`val.length ≤ pods.length` always holds at the
call sites, so the in-range `List.set` is exact.) -/
def updateDigits (val : Str) (pods : List (List (Char × Nat))) :
    List (List (Char × Nat)) :=
  val.enum.foldl
    (fun pods (i, d) =>
      pods.set i (alSet d ((alLookup d (pods.getD i [])).getD 0 + 1) (pods.getD i [])))
    pods

/-- Record one accepted value: skip empty values, bump its count and its
positional digit counts. -/
def recordVal (tag : Str) (val : Str) (agg : DrawAggregate) : DrawAggregate :=
  if val = [] then agg
  else
    { agg with
      prizesAgg :=
        alModify tag (fun m => alSet val ((alLookup val m).getD 0 + 1) m) agg.prizesAgg
      digitAgg := alModify tag (updateDigits val) agg.digitAgg }

/-- Process one line after the header: skip blank lines, tokenize, skip
unknown tags, right-truncate each value token to the tag's length, store the
joined display string, and record each accepted value. -/
def processLine (agg : DrawAggregate) (line : Str) : DrawAggregate :=
  if trim line = [] then agg
  else
    match wsTokens (trim line) with
    | [] => agg
    | tag :: rest =>
      if alContains tag agg.prizesAgg then
        let len := jsLen tag
        let nums := rest.filter (· ≠ [])
        let lastVals := nums.map fun n => lastN n len
        let agg' :=
          { agg with results := alSet tag (joinWith (str ", ") lastVals) agg.results }
        lastVals.foldl (fun a v => recordVal tag v a) agg'
      else agg

/-- `parseTextToAggregate(dateStr, text)`: split into lines, drop the header
line, and fold the remaining lines into the aggregate. -/
def parseTextToAggregate (dateStr text : Str) : DrawAggregate :=
  ((splitLines text).drop 1).foldl processLine (initAgg dateStr)

/-- The property names every plain object inherits from `Object.prototype`;
`obj[k]` is truthy for each of them even on `{}` (all are functions, and
`__proto__` yields `Object.prototype` itself). -/
def protoKeys : List Str :=
  [str "constructor", str "hasOwnProperty", str "isPrototypeOf",
   str "propertyIsEnumerable", str "toLocaleString", str "toString",
   str "valueOf", str "__proto__", str "__defineGetter__",
   str "__defineSetter__", str "__lookupGetter__", str "__lookupSetter__"]

/-- `processLine` with full JS property semantics.  The guard
`if (!prizesAgg[tag]) return` is a truthiness test that also consults the
prototype chain, so a tag naming an `Object.prototype` property passes it.
On such a ghost tag the source still executes `results[tag] = ...`
(a silent no-op when the tag is `__proto__`, an own-property write
otherwise), and then, for the first recorded value, the digit update
`digitAgg[tag][i][d]` dereferences `undefined` (the inherited
`digitAgg[tag]` is a function, not the array of digit maps) and throws a
`TypeError`, modelled as `Except.error`.  Writes the source makes to the
shared prototype objects themselves touch no own key of the aggregate, and
the thrown path discards the aggregate anyway. -/
def processLineJS (agg : DrawAggregate) (line : Str) :
    Except Unit DrawAggregate :=
  if trim line = [] then .ok agg
  else
    match wsTokens (trim line) with
    | [] => .ok agg
    | tag :: rest =>
      if alContains tag agg.prizesAgg || decide (tag ∈ protoKeys) then
        let len := jsLen tag
        let nums := rest.filter (· ≠ [])
        let lastVals := nums.map fun n => lastN n len
        let agg' :=
          { agg with
            results :=
              if tag = str "__proto__" then agg.results
              else alSet tag (joinWith (str ", ") lastVals) agg.results }
        if alContains tag agg.prizesAgg then
          .ok (lastVals.foldl (fun a v => recordVal tag v a) agg')
        else if lastVals = [] then .ok agg'
        else .error ()
      else .ok agg

/-- `parseTextToAggregate` with full JS property semantics: the first line
that throws aborts the parse (the caller catches the exception and skips the
file). -/
def parseTextToAggregateJS (dateStr text : Str) :
    Except Unit DrawAggregate :=
  ((splitLines text).drop 1).foldlM processLineJS (initAgg dateStr)

/-! ## Line-level views of the parser, used to state its properties -/

/-- The first token of a non-blank line (the candidate category tag). -/
def lineTag? (line : Str) : Option Str :=
  if trim line = [] then none else (wsTokens (trim line)).head?

/-- The accepted (post-truncation) values of a line, read as a line of the
given category. -/
def lineVals (tag line : Str) : List Str :=
  (((wsTokens (trim line)).drop 1).filter (· ≠ [])).map fun n => lastN n (jsLen tag)

/-- A non-blank line whose first token is the (recognised) tag. -/
def isTagLine (tag line : Str) : Bool :=
  lineTag? line = some tag && decide (tag ∈ PRIZE_LIST)

/-- The category tags occurring in the data lines of a file. -/
def fileTags (text : Str) : List Str :=
  ((splitLines text).drop 1).filterMap lineTag?

/-- All accepted (post-truncation) values of a category across all the data
lines of a file, in original order. -/
def acceptedVals (text tag : Str) : List Str :=
  ((splitLines text).drop 1).flatMap fun line =>
    if isTagLine tag line then lineVals tag line else []

/-! ## Merge Engine (`combineAggregatesForDates`) -/

/-- One merged entry: total count plus the capped contributing-date list. -/
structure Bucket where
  count : Nat
  dates : List Str
  deriving DecidableEq, Repr

/-- The cap `MAX_DATES_RECORD = 50` on a value's contributing-date list. -/
def MAX_DATES_RECORD : Nat := 50

/-- The globals mutated by the merge: `counts`, `digitCounts`,
`resultsByDate`. -/
structure CombState where
  counts : List (Str × List (Str × Bucket))
  digitCounts : List (Str × List (List (Char × Nat)))
  resultsByDate : List (Str × List (Str × Str))
  deriving DecidableEq, Repr

/-- `resetCounts()` (plus clearing `resultsByDate`). -/
def resetCounts : CombState :=
  { counts := PRIZE_LIST.map fun p => (p, [])
    digitCounts := PRIZE_LIST.map fun p => (p, List.replicate (jsLen p) [])
    resultsByDate := [] }

/-- Add one `(val, cnt)` entry of one date's per-file value map into the
running value map: accumulate the count, and push the date while the bucket
holds fewer than `MAX_DATES_RECORD` dates. -/
def addValEntry (d : Str) (m : List (Str × Bucket)) (e : Str × Nat) :
    List (Str × Bucket) :=
  let b := (alLookup e.1 m).getD ⟨0, []⟩
  alSet e.1
    ⟨b.count + e.2, if b.dates.length < MAX_DATES_RECORD then b.dates ++ [d] else b.dates⟩ m

/-- Merge one date's per-position digit maps into the running ones. -/
def mergeDigits (pods : List (List (Char × Nat))) (dest : List (List (Char × Nat))) :
    List (List (Char × Nat)) :=
  pods.enum.foldl
    (fun dest (i, pod) =>
      pod.foldl
        (fun dest e =>
          dest.set i (alSet e.1 ((alLookup e.1 (dest.getD i [])).getD 0 + e.2) (dest.getD i [])))
        dest)
    dest

/-- Fold one prize of one date's aggregate into the state. -/
def processPrize (agg : DrawAggregate) (d : Str) (st : CombState) (p : Str) :
    CombState :=
  { st with
    counts :=
      alModify p (fun m => ((alLookup p agg.prizesAgg).getD []).foldl (addValEntry d) m)
        st.counts
    digitCounts :=
      alModify p (mergeDigits ((alLookup p agg.digitAgg).getD [])) st.digitCounts }

/-- Fold one selected date into the state: dates absent from the store are
skipped, then every prize of the date's aggregate is merged and the date's
raw display strings are kept for per-date lookup. -/
def processDate (store : List (Str × DrawAggregate)) (st : CombState) (d : Str) :
    CombState :=
  match alLookup d store with
  | none => st
  | some agg =>
    let st' := PRIZE_LIST.foldl (processPrize agg d) st
    { st' with resultsByDate := alSet d agg.results st'.resultsByDate }

/-- `combineAggregatesForDates(selectedDateStrs, perFileAggMapLocal)`: reset
the global tallies, then fold the selected dates in the caller-supplied
order. -/
def combineAggregatesForDates (selectedDateStrs : List Str)
    (store : List (Str × DrawAggregate)) : CombState :=
  selectedDateStrs.foldl (processDate store) resetCounts

/-- The per-file count of one value for one date: the count stored in the
date's per-file map, `0` for dates absent from the store or values absent
from the map. -/
def perFileCount (store : List (Str × DrawAggregate)) (d tag val : Str) : Nat :=
  match alLookup d store with
  | none => 0
  | some agg => (alLookup val ((alLookup tag agg.prizesAgg).getD [])).getD 0

/-- Whether a date is in the store and its per-file map for the category
contains the value (i.e. it pushes the date into the bucket). -/
def contributes (store : List (Str × DrawAggregate)) (tag val : Str)
    (d : Str) : Bool :=
  match alLookup d store with
  | none => false
  | some agg => decide (val ∈ alKeys ((alLookup tag agg.prizesAgg).getD []))

/-- The merged bucket for a `(category, value)` pair. -/
def bucketOf (st : CombState) (tag val : Str) : Option Bucket :=
  (alLookup tag st.counts).bind (alLookup val)

/-- The merged total count for a `(category, value)` pair (0 if absent). -/
def bucketCount (st : CombState) (tag val : Str) : Nat :=
  ((bucketOf st tag val).map (·.count)).getD 0

/-- The merged contributing-date list for a `(category, value)` pair. -/
def bucketDates (st : CombState) (tag val : Str) : List Str :=
  ((bucketOf st tag val).map (·.dates)).getD []

/-- Well-formedness of a store: per-file value maps have distinct keys.
Every store built from JS objects (whose keys are unique) satisfies it. -/
def storeWF (store : List (Str × DrawAggregate)) : Prop :=
  ∀ e ∈ store, ∀ q ∈ e.2.prizesAgg, (alKeys q.2).Nodup

instance : DecidablePred storeWF := fun store => by
  unfold storeWF; infer_instance

/-- A small synthetic three-date store with overlapping values, used to
evaluate the merge theorems on concrete data. -/
def sampleStore : List (Str × DrawAggregate) :=
  [(str "2020-01-01",
    { dateStr := str "2020-01-01"
      prizesAgg := [(str "FIRST", [(str "111111", 1), (str "222222", 2)])]
      digitAgg := []
      results := [] }),
   (str "2020-01-16",
    { dateStr := str "2020-01-16"
      prizesAgg := [(str "FIRST", [(str "111111", 3)])]
      digitAgg := []
      results := [] }),
   (str "2020-02-01",
    { dateStr := str "2020-02-01"
      prizesAgg := [(str "FIRST", [(str "222222", 5)])]
      digitAgg := []
      results := [] })]

/-! ## Candidate Enumerator, main script variant (`buildCandidateUrls` in
src/script.js).  Three nested loops over year, month and allow-listed day;
only pre-epoch combinations of December 2006 are skipped.  Each URL is
determined by its date, so a candidate is modelled as its date triple. -/

def buildCandidateUrls (todayY : Nat) : List YMD :=
  (List.range' 2006 (todayY + 1 - 2006)).flatMap fun y =>
    (List.range' 1 12).flatMap fun m =>
      DRAW_DAYS.filterMap fun d =>
        if y = 2006 ∧ m = 12 ∧ d < 30 then none else some ⟨y, m, d⟩

/-! ## Candidate Enumerator, CSV-page variant (`buildCandidateUrls` in the
CSV export script): walk day by day from the epoch through today and keep
the days whose day-of-month is allow-listed. -/

/-- The day-by-day loop `for (d = start; d <= end; d.setDate(d.getDate()+1))`,
with explicit fuel. -/
def dayWalkF : Nat → YMD → YMD → List YMD
  | 0, _, _ => []
  | n + 1, cur, e => if ymdLe cur e then cur :: dayWalkF n (addOneDay cur) e else []

/-- All days visited by the loop from `s` through `e` (the fuel
`ymdIdx e + 1 - ymdIdx s` is enough, as proved below). -/
def datesFromTo (s e : YMD) : List YMD := dayWalkF (ymdIdx e + 1 - ymdIdx s) s e

/-- The CSV-page candidate enumeration. -/
def buildCandidateUrlsCsv (today : YMD) : List YMD :=
  (datesFromTo FIXED_START today).filter fun x => decide (x.d ∈ DRAW_DAYS)

/-! ## Date Selector (`computeSelectedDatesFromMode`) -/

/-- The `timeMode` radio value; any unrecognised value falls through to the
select-everything branch. -/
inductive TimeMode
  | draws | years | months | other
  deriving DecidableEq, Repr

/-- One element of `dateMap`: a date key and its parsed `Date`. -/
structure DateEntry where
  dateStr : Str
  date : YMD
  deriving DecidableEq, Repr

/-- JS `Date` day-of-month overflow normalisation after `setFullYear` /
`setMonth`.  The inputs always satisfy `d ≤ 31`, so the overflow spills at
most one month. -/
def normDayOverflow (y m d : Nat) : YMD :=
  if d > daysInMonth y m then
    if m = 12 then ⟨y + 1, 1, d - daysInMonth y m⟩
    else ⟨y, m + 1, d - daysInMonth y m⟩
  else ⟨y, m, d⟩

/-- `x.setFullYear(Y)` keeping month and day (with overflow normalisation:
Feb 29 of a leap year becomes Mar 1 of a non-leap year). -/
def setYearTo (x : YMD) (newY : Nat) : YMD := normDayOverflow newY x.m x.d

/-- `d.setMonth(idx)` for a 0-based month index that may fall outside
`0..11` (JS borrows/carries whole years, then normalises day overflow). -/
def setMonthIdx (x : YMD) (idx : Int) : YMD :=
  let y' := ((x.y : Int) + Int.fdiv idx 12).toNat
  let m' := (Int.emod idx 12).toNat + 1
  normDayOverflow y' m' x.d

/-- `selectedDates.add(x)`: insertion-ordered set insertion. -/
def addToSet (s : List Str) (x : Str) : List Str :=
  if x ∈ s then s else s ++ [x]

/-- Add every date key of the given entries to the set. -/
def addAllDates (s : List Str) (entries : List DateEntry) : List Str :=
  entries.foldl (fun s e => addToSet s e.dateStr) s

/-- `computeSelectedDatesFromMode(perFileDates)`.  The numeric parameters
carry the already-parsed input values (`parseInt(...) || 1` for draws,
`parseInt(...) || 0` for years/months); `now` is `new Date()`'s date.
Date-only approximation: in the non-anchored years/months branches the
source's `cut` keeps the current time of day, so on the boundary calendar
date the source excludes what this date-only model includes; the anchored
branches, whose bounds are all midnights, are exact. -/
def computeSelectedDatesFromMode (mode : TimeMode) (fixedStart : Bool)
    (drawsN yearsN monthsN : Nat) (now : YMD) (perFileDates : List DateEntry) :
    List Str :=
  match mode with
  | .draws =>
    let slice :=
      if fixedStart then
        (perFileDates.filter fun x => decide (ymdLe FIXED_START x.date)).take drawsN
      else perFileDates.drop (perFileDates.length - drawsN)
    addAllDates [] slice
  | .years =>
    if fixedStart then
      let e := if yearsN > 0 then setYearTo FIXED_START (FIXED_START.y + yearsN)
               else FIXED_START
      addAllDates []
        (perFileDates.filter fun x =>
          decide (ymdLe FIXED_START x.date) && decide (ymdLe x.date e))
    else
      if yearsN > 0 then
        let cut := setYearTo now (now.y - yearsN)
        addAllDates [] (perFileDates.filter fun x => decide (ymdLe cut x.date))
      else addAllDates [] perFileDates
  | .months =>
    if fixedStart then
      let e := if monthsN > 0 then setMonthIdx FIXED_START ((FIXED_START.m : Int) - 1 + monthsN)
               else FIXED_START
      addAllDates []
        (perFileDates.filter fun x =>
          decide (ymdLe FIXED_START x.date) && decide (ymdLe x.date e))
    else
      if monthsN > 0 then
        let cut := setMonthIdx now ((now.m : Int) - 1 - monthsN)
        addAllDates [] (perFileDates.filter fun x => decide (ymdLe cut x.date))
      else addAllDates [] perFileDates
  | .other => addAllDates [] perFileDates

/-! ## Fetch Scheduler / Persistence Cache (`progressiveFetchAndProcess`) -/

/-- The persisted snapshot `{ fetchedAt, data }`. -/
structure CacheBlob where
  fetchedAt : Nat
  data : List (Str × DrawAggregate)
  deriving Repr

/-- Cache acceptance on startup: the loaded blob initialises the store only
when it exists, has a truthy timestamp and is younger than `CACHE_TTL_MS`;
otherwise the store keeps its initial empty state.  (JS computes
`Date.now() - fetchedAt < TTL` on numbers; with `fetchedAt ≤ now` the
truncated subtraction agrees, and a future timestamp is accepted by both.) -/
def acceptCache (now : Nat) (cached : Option CacheBlob) :
    List (Str × DrawAggregate) :=
  match cached with
  | none => []
  | some cb =>
    if cb.fetchedAt ≠ 0 ∧ now - cb.fetchedAt < CACHE_TTL_MS then cb.data else []

/-- Lexicographic string order, the effect of
`a.dateStr.localeCompare(b.dateStr)` on the ASCII date keys. -/
def strLeB : Str → Str → Bool
  | [], _ => true
  | _ :: _, [] => false
  | a :: as, b :: bs => if a = b then strLeB as bs else decide (a < b)

/-- The candidate ordering relation used by the sort. -/
def strLe (a b : Str) : Prop := strLeB a b = true

instance : DecidableRel strLe := fun a b => by unfold strLe; infer_instance

/-- The part of `progressiveFetchAndProcess` that decides what is fetched:
the store after cache acceptance, and the two fetch phases (recent first,
older second), each restricted to candidates absent from the store. -/
structure FetchPlan where
  store : List (Str × DrawAggregate)
  recentToFetch : List Str
  olderToFetch : List Str

/-- Compute the fetch plan from the loaded cache blob and the candidate date
keys. -/
def progressiveFetchPlan (now : Nat) (cached : Option CacheBlob)
    (candidateList : List Str) (recentLimit : Nat) : FetchPlan :=
  let store := acceptCache now cached
  let candidates := candidateList.insertionSort strLe
  let total := candidates.length
  let recent := candidates.drop (total - recentLimit)
  let older := candidates.take (total - recentLimit)
  { store := store
    recentToFetch := recent.filter fun c => !alContains c store
    olderToFetch := older.filter fun c => !alContains c store }

/-- All candidate dates for which a network retrieval is issued. -/
def fetchedDates (pl : FetchPlan) : List Str := pl.recentToFetch ++ pl.olderToFetch

/-! ## CSV export surface (the `showCsvBtn` click handler) -/

/-- Decimal digit value. -/
def digitVal? (c : Char) : Option Nat :=
  if '0' ≤ c && c ≤ '9' then some (c.toNat - '0'.toNat) else none

/-- Helper: read a decimal numeral. -/
def decNatAux : Str → Nat → Option Nat
  | [], acc => some acc
  | c :: rest, acc =>
    match digitVal? c with
    | some v => decNatAux rest (acc * 10 + v)
    | none => none

/-- Read a non-empty all-digit string as a number. -/
def decNat? (s : Str) : Option Nat :=
  if s = [] then none else decNatAux s 0

/-- The date value of a store key, modelling `new Date(d + 'T00:00')` on the
canonical `YYYY-MM-DD` keys; anything malformed collapses to a sentinel (a
`NaN` timestamp in JS). -/
def parseDateKey (s : Str) : YMD :=
  match splitOnChar '-' s with
  | [ys, ms, ds] =>
    match decNat? ys, decNat? ms, decNat? ds with
    | some y, some m, some d => ⟨y, m, d⟩
    | _, _, _ => ⟨0, 0, 0⟩
  | _ => ⟨0, 0, 0⟩

/-- The comparator `(a, b) => a.date - b.date` of the CSV page's key sort. -/
def csvKeyLe (a b : Str) : Prop := ymdLe (parseDateKey a) (parseDateKey b)

instance : DecidableRel csvKeyLe := fun a b => by unfold csvKeyLe; infer_instance

/-- `numbersStr.split(',').map(n => n.trim()).filter(n => n)`: the non-empty
trimmed comma-separated fields of a display string. -/
def csvFields (r : Str) : List Str :=
  ((splitOnChar ',' r).map trim).filter (· ≠ [])

/-- One iteration of the CSV loop: the lines contributed by one date key
(none when the date's aggregate is missing or its display string for the
prize is missing or empty). -/
def csvLineFor (store : List (Str × DrawAggregate)) (prize dstr : Str) :
    List Str :=
  match alLookup dstr store with
  | none => []
  | some agg =>
    match alLookup prize agg.results with
    | none => []
    | some r =>
      if r = [] then []
      else (csvFields r).map fun num => num ++ [','] ++ dstr

/-- The CSV generation: sort the store's keys by date ascending and emit, for
each date whose aggregate has a truthy display string for the chosen prize,
one `value,date` line per comma-separated field of that string. -/
def csvLines (store : List (Str × DrawAggregate)) (prize : Str) : List Str :=
  (List.insertionSort csvKeyLe (store.map (·.1))).flatMap (csvLineFor store prize)

/-- The source text a date key maps to in a list of (date, text) pairs. -/
def textOf (texts : List (Str × Str)) (dk : Str) : Str :=
  (alLookup dk texts).getD []

/-- The accepted values of the last line bearing the tag (the values the
display string of the parsed aggregate lists), or `[]` when there is none. -/
def lastLineVals (t tag : Str) : List Str :=
  match (((splitLines t).drop 1).filter (isTagLine tag)).getLast? with
  | some l => lineVals tag l
  | none => []

/-! ## Association-list lemmas -/

theorem alLookup_alSet_self {K V : Type} [DecidableEq K] (k : K) (v : V)
    (l : List (K × V)) : alLookup k (alSet k v l) = some v := by
  induction l with
  | nil => simp [alSet, alLookup]
  | cons p rest ih =>
    obtain ⟨k', v'⟩ := p
    by_cases h : k' = k <;> simp [alSet, alLookup, h, ih]

theorem alLookup_alSet_ne {K V : Type} [DecidableEq K] {k k' : K} (v : V)
    (l : List (K × V)) (h : k' ≠ k) :
    alLookup k (alSet k' v l) = alLookup k l := by
  induction l with
  | nil => simp [alSet, alLookup, h]
  | cons p rest ih =>
    obtain ⟨k₀, v₀⟩ := p
    by_cases h0 : k₀ = k'
    · subst h0; simp [alSet, alLookup, h]
    · simp only [alSet, if_neg h0]
      by_cases h1 : k₀ = k
      · simp [alLookup, h1]
      · simp [alLookup, h1, ih]

theorem alLookup_alModify_self {K V : Type} [DecidableEq K] (k : K) (f : V → V)
    (l : List (K × V)) : alLookup k (alModify k f l) = (alLookup k l).map f := by
  induction l with
  | nil => simp [alModify, alLookup]
  | cons p rest ih =>
    obtain ⟨k', v'⟩ := p
    by_cases h : k' = k <;> simp [alModify, alLookup, h, ih]

theorem alLookup_alModify_ne {K V : Type} [DecidableEq K] {k k' : K} (f : V → V)
    (l : List (K × V)) (h : k' ≠ k) :
    alLookup k (alModify k' f l) = alLookup k l := by
  induction l with
  | nil => simp [alModify, alLookup]
  | cons p rest ih =>
    obtain ⟨k₀, v₀⟩ := p
    by_cases h0 : k₀ = k'
    · subst h0; simp [alModify, alLookup, h]
    · simp only [alModify, if_neg h0]
      by_cases h1 : k₀ = k
      · simp [alLookup, h1]
      · simp [alLookup, h1, ih]

theorem alKeys_alModify {K V : Type} [DecidableEq K] (k : K) (f : V → V)
    (l : List (K × V)) : alKeys (alModify k f l) = alKeys l := by
  induction l with
  | nil => simp [alModify]
  | cons p rest ih =>
    obtain ⟨k', v'⟩ := p
    by_cases h : k' = k
    · simp [alModify, alKeys, h]
    · simp only [alModify, if_neg h]
      simpa [alKeys] using ih

theorem mem_alSet {K V : Type} [DecidableEq K] (k : K) (v : V)
    (l : List (K × V)) : ∀ p ∈ alSet k v l, p = (k, v) ∨ p ∈ l := by
  induction l with
  | nil =>
    intro p hp
    simp only [alSet, List.mem_singleton] at hp
    exact Or.inl hp
  | cons q rest ih =>
    obtain ⟨k', v'⟩ := q
    intro p hp
    by_cases h : k' = k
    · subst h
      simp [alSet] at hp
      rcases hp with hp | hp
      · exact Or.inl (by simp [hp])
      · exact Or.inr (List.mem_cons_of_mem _ hp)
    · simp [alSet, h] at hp
      rcases hp with hp | hp
      · exact Or.inr (by simp [hp])
      · rcases ih p hp with h2 | h2
        · exact Or.inl h2
        · exact Or.inr (List.mem_cons_of_mem _ h2)

theorem alLookup_eq_none_iff {K V : Type} [DecidableEq K] {k : K}
    {l : List (K × V)} : alLookup k l = none ↔ k ∉ alKeys l := by
  induction l with
  | nil => simp [alLookup, alKeys]
  | cons p rest ih =>
    obtain ⟨k', v'⟩ := p
    by_cases h : k' = k
    · subst h; simp [alLookup, alKeys]
    · simp [alLookup, alKeys, h, ih, Ne.symm h]

theorem alLookup_isSome_iff {K V : Type} [DecidableEq K] {k : K}
    {l : List (K × V)} : (alLookup k l).isSome = true ↔ k ∈ alKeys l := by
  rw [Option.isSome_iff_ne_none]
  constructor
  · intro h
    by_contra hk
    exact h (alLookup_eq_none_iff.2 hk)
  · intro h hn
    exact alLookup_eq_none_iff.1 hn h

theorem alLookup_map_snd {K V W : Type} [DecidableEq K] (k : K)
    (f : K → V → W) (l : List (K × V)) :
    alLookup k (l.map fun p => (p.1, f p.1 p.2)) = (alLookup k l).map (f k) := by
  induction l with
  | nil => simp [alLookup]
  | cons p rest ih =>
    obtain ⟨k', v'⟩ := p
    by_cases h : k' = k
    · subst h; simp [alLookup]
    · simp [alLookup, h, ih]

/-- Rewriting `processLine` through the line view: a line acts on the
aggregate exactly when it carries a recognised tag, and then stores the
joined display string and records each accepted value.  Requires the
category-key invariant, which identifies `!!prizesAgg[tag]` with
`tag ∈ PRIZE_LIST`. -/
theorem processLine_eq (agg : DrawAggregate) (line : Str)
    (hk : alKeys agg.prizesAgg = PRIZE_LIST) :
    processLine agg line =
      match lineTag? line with
      | none => agg
      | some tag =>
        if tag ∈ PRIZE_LIST then
          (lineVals tag line).foldl (fun a v => recordVal tag v a)
            { agg with
              results := alSet tag (joinWith (str ", ") (lineVals tag line)) agg.results }
        else agg := by
  unfold processLine lineTag? lineVals
  by_cases ht : trim line = []
  · simp [ht]
  · simp only [ht, reduceIte, if_neg ht]
    cases hw : wsTokens (trim line) with
    | nil => simp
    | cons tag rest =>
      have hcont : alContains tag agg.prizesAgg = decide (tag ∈ PRIZE_LIST) := by
        rw [Bool.eq_iff_iff]
        simp [alContains, alLookup_isSome_iff, hk]
      simp only [List.head?_cons, hcont]
      by_cases hp : tag ∈ PRIZE_LIST
      · simp [hp]
      · simp [hp]

/-- `processLine` on a line with no tag (blank line) is the identity. -/
theorem processLine_eq_none (agg : DrawAggregate) (line : Str)
    (hk : alKeys agg.prizesAgg = PRIZE_LIST) (h : lineTag? line = none) :
    processLine agg line = agg := by
  rw [processLine_eq agg line hk, h]

/-- `processLine` on a line with an unrecognised tag is the identity. -/
theorem processLine_eq_unknown (agg : DrawAggregate) (line tag : Str)
    (hk : alKeys agg.prizesAgg = PRIZE_LIST) (h : lineTag? line = some tag)
    (hp : tag ∉ PRIZE_LIST) : processLine agg line = agg := by
  rw [processLine_eq agg line hk, h]
  simp [hp]

/-- `processLine` on a recognised tag line: store the display string, then
record every accepted value. -/
theorem processLine_eq_tag (agg : DrawAggregate) (line tag : Str)
    (hk : alKeys agg.prizesAgg = PRIZE_LIST) (h : lineTag? line = some tag)
    (hp : tag ∈ PRIZE_LIST) :
    processLine agg line =
      (lineVals tag line).foldl (fun a v => recordVal tag v a)
        { agg with
          results := alSet tag (joinWith (str ", ") (lineVals tag line)) agg.results } := by
  rw [processLine_eq agg line hk, h]
  simp [hp]

/-! ## Parser invariants -/

theorem alLookup_map_of_mem {K V : Type} [DecidableEq K] (k : K) (g : K → V)
    (l : List K) (h : k ∈ l) :
    alLookup k (l.map fun q => (q, g q)) = some (g k) := by
  induction l with
  | nil => cases h
  | cons a l ih =>
    by_cases ha : a = k
    · subst ha; simp [alLookup]
    · rcases List.mem_cons.1 h with h1 | h1
      · exact absurd h1.symm ha
      · simp [alLookup, ha, ih h1]

theorem alKeys_map_pair {K V : Type} (g : K → V) (l : List K) :
    alKeys (l.map fun q => (q, g q)) = l := by
  induction l with
  | nil => rfl
  | cons a l ih => simp [alKeys] at ih ⊢; exact ih

theorem recordVal_results (tag val : Str) (agg : DrawAggregate) :
    (recordVal tag val agg).results = agg.results := by
  unfold recordVal; split <;> rfl

theorem recordVal_dateStr (tag val : Str) (agg : DrawAggregate) :
    (recordVal tag val agg).dateStr = agg.dateStr := by
  unfold recordVal; split <;> rfl

theorem recordVal_prizesAgg_keys (tag val : Str) (agg : DrawAggregate) :
    alKeys (recordVal tag val agg).prizesAgg = alKeys agg.prizesAgg := by
  unfold recordVal; split
  · rfl
  · simp [alKeys_alModify]

theorem recordVal_digitAgg_keys (tag val : Str) (agg : DrawAggregate) :
    alKeys (recordVal tag val agg).digitAgg = alKeys agg.digitAgg := by
  unfold recordVal; split
  · rfl
  · simp [alKeys_alModify]

theorem foldl_recordVal_results (tag : Str) (vs : List Str) (agg : DrawAggregate) :
    (vs.foldl (fun a v => recordVal tag v a) agg).results = agg.results := by
  induction vs generalizing agg with
  | nil => rfl
  | cons v vs ih => rw [List.foldl_cons, ih, recordVal_results]

theorem foldl_recordVal_prizesAgg_keys (tag : Str) (vs : List Str)
    (agg : DrawAggregate) :
    alKeys (vs.foldl (fun a v => recordVal tag v a) agg).prizesAgg =
      alKeys agg.prizesAgg := by
  induction vs generalizing agg with
  | nil => rfl
  | cons v vs ih => rw [List.foldl_cons, ih, recordVal_prizesAgg_keys]

theorem foldl_recordVal_digitAgg_keys (tag : Str) (vs : List Str)
    (agg : DrawAggregate) :
    alKeys (vs.foldl (fun a v => recordVal tag v a) agg).digitAgg =
      alKeys agg.digitAgg := by
  induction vs generalizing agg with
  | nil => rfl
  | cons v vs ih => rw [List.foldl_cons, ih, recordVal_digitAgg_keys]

theorem processLine_prizesAgg_keys (agg : DrawAggregate) (line : Str)
    (hk : alKeys agg.prizesAgg = PRIZE_LIST) :
    alKeys (processLine agg line).prizesAgg = PRIZE_LIST := by
  cases h : lineTag? line with
  | none => rw [processLine_eq_none agg line hk h]; exact hk
  | some tag =>
    by_cases hp : tag ∈ PRIZE_LIST
    · rw [processLine_eq_tag agg line tag hk h hp, foldl_recordVal_prizesAgg_keys]
      exact hk
    · rw [processLine_eq_unknown agg line tag hk h hp]; exact hk

theorem processLine_digitAgg_keys (agg : DrawAggregate) (line : Str)
    (hk : alKeys agg.prizesAgg = PRIZE_LIST) :
    alKeys (processLine agg line).digitAgg = alKeys agg.digitAgg := by
  cases h : lineTag? line with
  | none => rw [processLine_eq_none agg line hk h]
  | some tag =>
    by_cases hp : tag ∈ PRIZE_LIST
    · rw [processLine_eq_tag agg line tag hk h hp, foldl_recordVal_digitAgg_keys]
    · rw [processLine_eq_unknown agg line tag hk h hp]

theorem foldl_processLine_prizesAgg_keys (lines : List Str) (agg : DrawAggregate)
    (hk : alKeys agg.prizesAgg = PRIZE_LIST) :
    alKeys (lines.foldl processLine agg).prizesAgg = PRIZE_LIST := by
  induction lines generalizing agg with
  | nil => exact hk
  | cons l lines ih =>
    rw [List.foldl_cons]
    exact ih _ (processLine_prizesAgg_keys agg l hk)

theorem foldl_processLine_digitAgg_keys (lines : List Str) (agg : DrawAggregate)
    (hk : alKeys agg.prizesAgg = PRIZE_LIST) :
    alKeys (lines.foldl processLine agg).digitAgg = alKeys agg.digitAgg := by
  induction lines generalizing agg with
  | nil => rfl
  | cons l lines ih =>
    rw [List.foldl_cons, ih _ (processLine_prizesAgg_keys agg l hk),
      processLine_digitAgg_keys agg l hk]

theorem initAgg_prizesAgg_keys (d : Str) :
    alKeys (initAgg d).prizesAgg = PRIZE_LIST := by
  unfold initAgg
  exact alKeys_map_pair _ _

theorem initAgg_digitAgg_keys (d : Str) :
    alKeys (initAgg d).digitAgg = PRIZE_LIST := by
  unfold initAgg
  exact alKeys_map_pair _ _

/-- The parsed aggregate always maps exactly the nine categories in
`prizesAgg`. -/
theorem parse_prizesAgg_keys (d t : Str) :
    alKeys (parseTextToAggregate d t).prizesAgg = PRIZE_LIST := by
  unfold parseTextToAggregate
  exact foldl_processLine_prizesAgg_keys _ _ (initAgg_prizesAgg_keys d)

/-- The parsed aggregate always maps exactly the nine categories in
`digitAgg`. -/
theorem parse_digitAgg_keys (d t : Str) :
    alKeys (parseTextToAggregate d t).digitAgg = PRIZE_LIST := by
  unfold parseTextToAggregate
  rw [foldl_processLine_digitAgg_keys _ _ (initAgg_prizesAgg_keys d)]
  exact initAgg_digitAgg_keys d

theorem alLookup_map_of_not_mem {K V : Type} [DecidableEq K] (k : K) (g : K → V)
    (l : List K) (h : k ∉ l) :
    alLookup k (l.map fun q => (q, g q)) = none := by
  apply alLookup_eq_none_iff.2
  rwa [alKeys_map_pair]

theorem length_lastN (l : Str) (n : Nat) : (lastN l n).length ≤ n := by
  unfold lastN
  rw [List.length_drop]
  omega

theorem lastN_ne_nil {l : Str} {n : Nat} (hl : l ≠ []) (hn : 0 < n) :
    lastN l n ≠ [] := by
  unfold lastN
  intro h
  have h1 := List.drop_eq_nil_iff.1 h
  have h2 : 0 < l.length := List.length_pos.2 hl
  omega

theorem jsLen_pos (tag : Str) : 0 < jsLen tag := by
  unfold jsLen
  split
  · omega
  · split <;> omega

/-- Every value of `lineVals` is a non-empty string of at most the
category's length. -/
theorem lineVals_spec (tag line : Str) :
    ∀ v ∈ lineVals tag line, v ≠ [] ∧ v.length ≤ jsLen tag := by
  intro v hv
  unfold lineVals at hv
  rcases List.mem_map.1 hv with ⟨n, hn, rfl⟩
  have hne : n ≠ [] := by
    have := List.mem_filter.1 hn
    simpa using this.2
  exact ⟨lastN_ne_nil hne (jsLen_pos tag), length_lastN n (jsLen tag)⟩

/-- Invariant: every value stored in `prizesAgg` is non-empty and no longer
than its category's length. -/
def valLenInv (agg : DrawAggregate) : Prop :=
  ∀ tag m, alLookup tag agg.prizesAgg = some m →
    ∀ e ∈ m, e.1 ≠ [] ∧ e.1.length ≤ jsLen tag

theorem recordVal_valLenInv (tag val : Str) (agg : DrawAggregate)
    (hlen : val.length ≤ jsLen tag) (h : valLenInv agg) :
    valLenInv (recordVal tag val agg) := by
  unfold recordVal
  split
  · exact h
  · rename_i hv
    intro tag' m hm e he
    dsimp only at hm
    by_cases ht : tag = tag'
    · subst ht
      rw [alLookup_alModify_self] at hm
      cases h0 : alLookup tag agg.prizesAgg with
      | none => rw [h0] at hm; simp at hm
      | some m0 =>
        rw [h0] at hm
        simp at hm
        subst hm
        rcases mem_alSet _ _ _ e he with h1 | h1
        · rw [h1]
          exact ⟨hv, hlen⟩
        · exact h _ _ h0 e h1
    · rw [alLookup_alModify_ne _ _ ht] at hm
      exact h _ _ hm e he

theorem foldl_recordVal_valLenInv (tag : Str) (vs : List Str)
    (agg : DrawAggregate) (hvs : ∀ v ∈ vs, v.length ≤ jsLen tag)
    (h : valLenInv agg) :
    valLenInv (vs.foldl (fun a v => recordVal tag v a) agg) := by
  induction vs generalizing agg with
  | nil => exact h
  | cons v vs ih =>
    rw [List.foldl_cons]
    exact ih _ (fun v hv => hvs v (List.mem_cons_of_mem _ hv))
      (recordVal_valLenInv tag v agg (hvs v (List.mem_cons_self ..)) h)

theorem processLine_valLenInv (agg : DrawAggregate) (line : Str)
    (hk : alKeys agg.prizesAgg = PRIZE_LIST) (h : valLenInv agg) :
    valLenInv (processLine agg line) := by
  cases hl : lineTag? line with
  | none => rw [processLine_eq_none agg line hk hl]; exact h
  | some tag =>
    by_cases hp : tag ∈ PRIZE_LIST
    · rw [processLine_eq_tag agg line tag hk hl hp]
      apply foldl_recordVal_valLenInv _ _ _
        (fun v hv => (lineVals_spec tag line v hv).2)
      intro tag' m hm e he
      dsimp only at hm
      exact h tag' m hm e he
    · rw [processLine_eq_unknown agg line tag hk hl hp]; exact h

theorem foldl_processLine_valLenInv (lines : List Str) (agg : DrawAggregate)
    (hk : alKeys agg.prizesAgg = PRIZE_LIST) (h : valLenInv agg) :
    valLenInv (lines.foldl processLine agg) := by
  induction lines generalizing agg with
  | nil => exact h
  | cons l lines ih =>
    rw [List.foldl_cons]
    exact ih _ (processLine_prizesAgg_keys agg l hk)
      (processLine_valLenInv agg l hk h)

/-- The parsed aggregate satisfies the value-length invariant. -/
theorem parse_valLenInv (d t : Str) : valLenInv (parseTextToAggregate d t) := by
  unfold parseTextToAggregate
  apply foldl_processLine_valLenInv _ _ (initAgg_prizesAgg_keys d)
  intro tag m hm e he
  unfold initAgg at hm
  dsimp only at hm
  by_cases hp : tag ∈ PRIZE_LIST
  · rw [alLookup_map_of_mem _ _ _ hp] at hm
    cases hm
    cases he
  · rw [alLookup_map_of_not_mem _ _ _ hp] at hm
    cases hm

/-! ## Digit-slot length invariant -/

theorem updateDigits_length (val : Str) (pods : List (List (Char × Nat))) :
    (updateDigits val pods).length = pods.length := by
  unfold updateDigits
  generalize val.enum = l
  induction l generalizing pods with
  | nil => rfl
  | cons e l ih =>
    obtain ⟨i, d⟩ := e
    rw [List.foldl_cons, ih, List.length_set]

/-- Invariant: every category's digit map list keeps its initial length. -/
def digitLenInv (agg : DrawAggregate) : Prop :=
  ∀ p ∈ PRIZE_LIST, ∃ pods,
    alLookup p agg.digitAgg = some pods ∧ pods.length = jsLen p

theorem recordVal_digitLenInv (tag val : Str) (agg : DrawAggregate)
    (h : digitLenInv agg) : digitLenInv (recordVal tag val agg) := by
  unfold recordVal
  split
  · exact h
  · intro p hp
    obtain ⟨pods, hpods, hlen⟩ := h p hp
    dsimp only
    by_cases ht : tag = p
    · subst ht
      refine ⟨updateDigits val pods, ?_, by rw [updateDigits_length]; exact hlen⟩
      rw [alLookup_alModify_self, hpods]
      rfl
    · exact ⟨pods, by rw [alLookup_alModify_ne _ _ ht]; exact hpods, hlen⟩

theorem foldl_recordVal_digitLenInv (tag : Str) (vs : List Str)
    (agg : DrawAggregate) (h : digitLenInv agg) :
    digitLenInv (vs.foldl (fun a v => recordVal tag v a) agg) := by
  induction vs generalizing agg with
  | nil => exact h
  | cons v vs ih =>
    rw [List.foldl_cons]
    exact ih _ (recordVal_digitLenInv tag v agg h)

theorem processLine_digitLenInv (agg : DrawAggregate) (line : Str)
    (hk : alKeys agg.prizesAgg = PRIZE_LIST) (h : digitLenInv agg) :
    digitLenInv (processLine agg line) := by
  cases hl : lineTag? line with
  | none => rw [processLine_eq_none agg line hk hl]; exact h
  | some tag =>
    by_cases hp : tag ∈ PRIZE_LIST
    · rw [processLine_eq_tag agg line tag hk hl hp]
      exact foldl_recordVal_digitLenInv _ _ _ h
    · rw [processLine_eq_unknown agg line tag hk hl hp]; exact h

theorem foldl_processLine_digitLenInv (lines : List Str) (agg : DrawAggregate)
    (hk : alKeys agg.prizesAgg = PRIZE_LIST) (h : digitLenInv agg) :
    digitLenInv (lines.foldl processLine agg) := by
  induction lines generalizing agg with
  | nil => exact h
  | cons l lines ih =>
    rw [List.foldl_cons]
    exact ih _ (processLine_prizesAgg_keys agg l hk)
      (processLine_digitLenInv agg l hk h)

/-- The parsed aggregate has exactly `jsLen p` digit slots per category. -/
theorem parse_digitLenInv (d t : Str) : digitLenInv (parseTextToAggregate d t) := by
  unfold parseTextToAggregate
  apply foldl_processLine_digitLenInv _ _ (initAgg_prizesAgg_keys d)
  intro p hp
  unfold initAgg
  dsimp only
  exact ⟨List.replicate (jsLen p) [],
    alLookup_map_of_mem _ _ _ hp, List.length_replicate ..⟩

/-! ## Absent categories keep their empty value map -/

theorem recordVal_prizesAgg_lookup_ne (tag val p : Str) (agg : DrawAggregate)
    (hne : tag ≠ p) :
    alLookup p (recordVal tag val agg).prizesAgg = alLookup p agg.prizesAgg := by
  unfold recordVal
  split
  · rfl
  · dsimp only
    exact alLookup_alModify_ne _ _ hne

theorem foldl_recordVal_prizesAgg_lookup_ne (tag p : Str) (vs : List Str)
    (agg : DrawAggregate) (hne : tag ≠ p) :
    alLookup p (vs.foldl (fun a v => recordVal tag v a) agg).prizesAgg =
      alLookup p agg.prizesAgg := by
  induction vs generalizing agg with
  | nil => rfl
  | cons v vs ih =>
    rw [List.foldl_cons, ih, recordVal_prizesAgg_lookup_ne _ _ _ _ hne]

theorem foldl_processLine_absent (lines : List Str) (agg : DrawAggregate)
    (p : Str) (hk : alKeys agg.prizesAgg = PRIZE_LIST)
    (habs : p ∉ lines.filterMap lineTag?)
    (h0 : alLookup p agg.prizesAgg = some []) :
    alLookup p (lines.foldl processLine agg).prizesAgg = some [] := by
  induction lines generalizing agg with
  | nil => exact h0
  | cons l lines ih =>
    rw [List.foldl_cons]
    cases hl : lineTag? l with
    | none =>
      rw [processLine_eq_none agg l hk hl]
      apply ih agg hk _ h0
      intro hmem
      exact habs (by rw [List.filterMap_cons, hl]; exact hmem)
    | some tag =>
      have hne : tag ≠ p := by
        intro he
        subst he
        exact habs (by rw [List.filterMap_cons, hl]; exact List.mem_cons_self ..)
      have habs' : p ∉ lines.filterMap lineTag? := by
        intro hmem
        exact habs (by rw [List.filterMap_cons, hl]; exact List.mem_cons_of_mem _ hmem)
      by_cases hp : tag ∈ PRIZE_LIST
      · rw [processLine_eq_tag agg l tag hk hl hp]
        refine ih _ ?_ habs' ?_
        · rw [foldl_recordVal_prizesAgg_keys]
          exact hk
        · rw [foldl_recordVal_prizesAgg_lookup_ne _ _ _ _ hne]
          exact h0
      · rw [processLine_eq_unknown agg l tag hk hl hp]
        exact ih agg hk habs' h0

/-- A category that appears on no data line keeps its empty value map. -/
theorem parse_absent_empty (d t p : Str) (hp : p ∈ PRIZE_LIST)
    (habs : p ∉ fileTags t) :
    alLookup p (parseTextToAggregate d t).prizesAgg = some [] := by
  unfold parseTextToAggregate
  apply foldl_processLine_absent _ _ _ (initAgg_prizesAgg_keys d) habs
  unfold initAgg
  dsimp only
  exact alLookup_map_of_mem _ _ _ hp

/-! ## The display string: last write wins -/

/-- Effect of one line on one category's display string: a line of this tag
overwrites it, every other line leaves it alone. -/
theorem processLine_results_lookup (agg : DrawAggregate) (line tag : Str)
    (hk : alKeys agg.prizesAgg = PRIZE_LIST) :
    alLookup tag (processLine agg line).results =
      if isTagLine tag line then some (joinWith (str ", ") (lineVals tag line))
      else alLookup tag agg.results := by
  cases hl : lineTag? line with
  | none =>
    rw [processLine_eq_none agg line hk hl]
    simp [isTagLine, hl]
  | some tag' =>
    by_cases hp' : tag' ∈ PRIZE_LIST
    · rw [processLine_eq_tag agg line tag' hk hl hp', foldl_recordVal_results]
      dsimp only
      by_cases ht : tag' = tag
      · subst ht
        rw [alLookup_alSet_self]
        simp [isTagLine, hl, hp']
      · rw [alLookup_alSet_ne _ _ ht]
        have hf : isTagLine tag line = false := by
          simp [isTagLine, hl]
          intro he
          exact absurd he ht
        rw [hf]
        simp
    · rw [processLine_eq_unknown agg line tag' hk hl hp']
      have : isTagLine tag line = false := by
        simp [isTagLine, hl]
        intro he
        subst he
        simpa using hp'
      rw [this]
      simp

/-- Folding the data lines: the display string of a category is the one
written by the last line of that category, if any. -/
theorem foldl_processLine_results_lookup (lines : List Str)
    (agg : DrawAggregate) (tag : Str) (hk : alKeys agg.prizesAgg = PRIZE_LIST) :
    alLookup tag (lines.foldl processLine agg).results =
      match (lines.filter (isTagLine tag)).getLast? with
      | some l => some (joinWith (str ", ") (lineVals tag l))
      | none => alLookup tag agg.results := by
  induction lines generalizing agg with
  | nil => rfl
  | cons l lines ih =>
    rw [List.foldl_cons, ih _ (processLine_prizesAgg_keys agg l hk)]
    cases hfl : (lines.filter (isTagLine tag)).getLast? with
    | some l' =>
      have hne : lines.filter (isTagLine tag) ≠ [] := by
        intro he
        rw [he] at hfl
        cases hfl
      by_cases hil : isTagLine tag l
      · rw [List.filter_cons_of_pos (by simpa using hil)]
        cases hf : lines.filter (isTagLine tag) with
        | nil => exact absurd hf hne
        | cons b tl =>
          rw [List.getLast?_cons_cons]
          rw [hf] at hfl
          rw [hfl]
      · rw [List.filter_cons_of_neg (by simpa using hil), hfl]
    | none =>
      have hfe : lines.filter (isTagLine tag) = [] :=
        List.getLast?_eq_none_iff.1 hfl
      rw [processLine_results_lookup agg l tag hk]
      by_cases hil : isTagLine tag l
      · rw [List.filter_cons_of_pos (by simpa using hil), hfe, if_pos hil]
        rfl
      · rw [List.filter_cons_of_neg (by simpa using hil), hfe, if_neg hil]
        rfl

/-- The parsed aggregate's display string of a category is written by the
last data line carrying that tag. -/
theorem parse_results_lookup (d t tag : Str) :
    alLookup tag (parseTextToAggregate d t).results =
      match (((splitLines t).drop 1).filter (isTagLine tag)).getLast? with
      | some l => some (joinWith (str ", ") (lineVals tag l))
      | none => none := by
  unfold parseTextToAggregate
  rw [foldl_processLine_results_lookup _ _ _ (initAgg_prizesAgg_keys d)]
  rfl

/-! ## Merge Engine lemmas -/

theorem alLookup_mem {K V : Type} [DecidableEq K] {k : K} {v : V}
    {l : List (K × V)} (h : alLookup k l = some v) : (k, v) ∈ l := by
  induction l with
  | nil => cases h
  | cons p rest ih =>
    obtain ⟨k₀, v₀⟩ := p
    by_cases h0 : k₀ = k
    · subst h0
      simp [alLookup] at h
      simp [h]
    · simp only [alLookup, if_neg h0] at h
      exact List.mem_cons_of_mem _ (ih h)

theorem getD_bucket_count (o : Option Bucket) :
    (o.getD ⟨0, []⟩).count = (o.map (·.count)).getD 0 := by
  cases o <;> rfl

theorem getD_bucket_dates (o : Option Bucket) :
    (o.getD ⟨0, []⟩).dates = (o.map (·.dates)).getD [] := by
  cases o <;> rfl

theorem addValEntry_lookup_self (d : Str) (m : List (Str × Bucket))
    (val : Str) (cnt : Nat) :
    alLookup val (addValEntry d m (val, cnt)) =
      some ⟨((alLookup val m).getD ⟨0, []⟩).count + cnt,
        if ((alLookup val m).getD ⟨0, []⟩).dates.length < MAX_DATES_RECORD
        then ((alLookup val m).getD ⟨0, []⟩).dates ++ [d]
        else ((alLookup val m).getD ⟨0, []⟩).dates⟩ := by
  unfold addValEntry
  exact alLookup_alSet_self ..

theorem addValEntry_lookup_ne (d : Str) (m : List (Str × Bucket))
    (e : Str × Nat) (v : Str) (hne : e.1 ≠ v) :
    alLookup v (addValEntry d m e) = alLookup v m := by
  unfold addValEntry
  exact alLookup_alSet_ne _ _ hne

/-- Folding one date's per-file entries into a value map: a value present in
the entries gains its per-file count and (below the cap) the date; all other
values are untouched. -/
theorem innerFold_lookup (d : Str) (es : List (Str × Nat))
    (m : List (Str × Bucket)) (v : Str) (hnd : (alKeys es).Nodup) :
    alLookup v (es.foldl (addValEntry d) m) =
      if v ∈ alKeys es then
        some ⟨((alLookup v m).getD ⟨0, []⟩).count + ((alLookup v es).getD 0),
          if ((alLookup v m).getD ⟨0, []⟩).dates.length < MAX_DATES_RECORD
          then ((alLookup v m).getD ⟨0, []⟩).dates ++ [d]
          else ((alLookup v m).getD ⟨0, []⟩).dates⟩
      else alLookup v m := by
  induction es generalizing m with
  | nil => simp [alKeys]
  | cons e es ih =>
    obtain ⟨val, cnt⟩ := e
    have hnd0 : val ∉ alKeys es ∧ (alKeys es).Nodup := by
      rw [show alKeys ((val, cnt) :: es) = val :: alKeys es from rfl,
        List.nodup_cons] at hnd
      exact hnd
    rw [List.foldl_cons]
    by_cases hv : val = v
    · subst hv
      rw [ih _ hnd0.2, if_neg hnd0.1, addValEntry_lookup_self]
      simp [alKeys, alLookup]
    · rw [ih _ hnd0.2, addValEntry_lookup_ne _ _ _ _ hv]
      have hvv : ¬v = val := fun h => hv h.symm
      have hlk : alLookup v ((val, cnt) :: es) = alLookup v es := by
        simp [alLookup, hv]
      by_cases hin : v ∈ alKeys es
      · rw [if_pos hin, if_pos (show v ∈ alKeys ((val, cnt) :: es) from
          List.mem_cons_of_mem _ hin), hlk]
      · rw [if_neg hin, if_neg (show ¬v ∈ alKeys ((val, cnt) :: es) by
          simp [alKeys] at hin ⊢
          exact ⟨hvv, hin⟩)]

theorem processPrize_counts_lookup_self (agg : DrawAggregate) (d : Str)
    (st : CombState) (p : Str) :
    alLookup p (processPrize agg d st p).counts =
      (alLookup p st.counts).map
        fun m => ((alLookup p agg.prizesAgg).getD []).foldl (addValEntry d) m := by
  unfold processPrize
  dsimp only
  exact alLookup_alModify_self ..

theorem processPrize_counts_lookup_ne (agg : DrawAggregate) (d : Str)
    (st : CombState) (p tag : Str) (hne : p ≠ tag) :
    alLookup tag (processPrize agg d st p).counts = alLookup tag st.counts := by
  unfold processPrize
  dsimp only
  exact alLookup_alModify_ne _ _ hne

theorem processPrize_counts_keys (agg : DrawAggregate) (d : Str)
    (st : CombState) (p : Str) :
    alKeys (processPrize agg d st p).counts = alKeys st.counts := by
  unfold processPrize
  dsimp only
  exact alKeys_alModify ..

theorem foldl_processPrize_counts_lookup (agg : DrawAggregate) (d : Str)
    (ps : List Str) (st : CombState) (tag : Str) (hnd : ps.Nodup) :
    alLookup tag (ps.foldl (processPrize agg d) st).counts =
      if tag ∈ ps then
        (alLookup tag st.counts).map
          fun m => ((alLookup tag agg.prizesAgg).getD []).foldl (addValEntry d) m
      else alLookup tag st.counts := by
  induction ps generalizing st with
  | nil => simp
  | cons p ps ih =>
    have hnd0 := List.nodup_cons.1 hnd
    rw [List.foldl_cons]
    by_cases hp : p = tag
    · subst hp
      rw [ih _ hnd0.2, if_neg hnd0.1, processPrize_counts_lookup_self]
      simp
    · rw [ih _ hnd0.2, processPrize_counts_lookup_ne _ _ _ _ _ hp]
      by_cases ht : tag ∈ ps
      · simp [ht]
      · have hnt : ¬tag ∈ p :: ps := by
          simp [ht]
          exact fun h => hp h.symm
        simp [ht, hnt]

theorem foldl_processPrize_counts_keys (agg : DrawAggregate) (d : Str)
    (ps : List Str) (st : CombState) :
    alKeys (ps.foldl (processPrize agg d) st).counts = alKeys st.counts := by
  induction ps generalizing st with
  | nil => rfl
  | cons p ps ih => rw [List.foldl_cons, ih, processPrize_counts_keys]

theorem processDate_counts_keys (store : List (Str × DrawAggregate))
    (st : CombState) (d : Str) :
    alKeys (processDate store st d).counts = alKeys st.counts := by
  unfold processDate
  cases alLookup d store with
  | none => rfl
  | some agg =>
    dsimp only
    exact foldl_processPrize_counts_keys ..

theorem perFileCount_eq_zero_of_not_contributes
    (store : List (Str × DrawAggregate)) (d tag val : Str)
    (hc : contributes store tag val d = false) :
    perFileCount store d tag val = 0 := by
  unfold perFileCount
  unfold contributes at hc
  cases hd : alLookup d store with
  | none => rfl
  | some agg =>
    rw [hd] at hc
    have hc2 : decide (val ∈ alKeys ((alLookup tag agg.prizesAgg).getD []))
        = false := hc
    have hnm : val ∉ alKeys ((alLookup tag agg.prizesAgg).getD []) := by
      simpa using hc2
    show (alLookup val ((alLookup tag agg.prizesAgg).getD [])).getD 0 = 0
    rw [alLookup_eq_none_iff.2 hnm]
    rfl

/-- One date's effect on one bucket. -/
theorem processDate_bucketOf (store : List (Str × DrawAggregate))
    (st : CombState) (d tag val : Str) (htag : tag ∈ PRIZE_LIST)
    (hk : alKeys st.counts = PRIZE_LIST) (hwf : storeWF store) :
    bucketOf (processDate store st d) tag val =
      if contributes store tag val d = true then
        some ⟨bucketCount st tag val + perFileCount store d tag val,
          if (bucketDates st tag val).length < MAX_DATES_RECORD
          then bucketDates st tag val ++ [d] else bucketDates st tag val⟩
      else bucketOf st tag val := by
  have hsome : (alLookup tag st.counts).isSome = true :=
    alLookup_isSome_iff.2 (by rw [hk]; exact htag)
  obtain ⟨m, hm⟩ := Option.isSome_iff_exists.1 hsome
  cases hd : alLookup d store with
  | none =>
    have hc : contributes store tag val d = false := by
      unfold contributes
      rw [hd]
    have hpd : processDate store st d = st := by
      unfold processDate
      rw [hd]
    rw [hpd, hc]
    simp
  | some agg =>
    have hes : (alKeys ((alLookup tag agg.prizesAgg).getD [])).Nodup := by
      cases hq : alLookup tag agg.prizesAgg with
      | none => simp [alKeys]
      | some q =>
        exact hwf (d, agg) (alLookup_mem hd) (tag, q) (alLookup_mem hq)
    have hcontr : contributes store tag val d
        = decide (val ∈ alKeys ((alLookup tag agg.prizesAgg).getD [])) := by
      unfold contributes
      rw [hd]
    have hpfc : perFileCount store d tag val
        = (alLookup val ((alLookup tag agg.prizesAgg).getD [])).getD 0 := by
      unfold perFileCount
      rw [hd]
    have hpd : (processDate store st d).counts
        = (PRIZE_LIST.foldl (processPrize agg d) st).counts := by
      unfold processDate
      rw [hd]
    have key : bucketOf (processDate store st d) tag val
        = alLookup val
            (((alLookup tag agg.prizesAgg).getD []).foldl (addValEntry d) m) := by
      unfold bucketOf
      rw [hpd, foldl_processPrize_counts_lookup agg d PRIZE_LIST st tag
        (by decide), if_pos htag, hm]
      rfl
    have hb : bucketOf st tag val = alLookup val m := by
      unfold bucketOf
      rw [hm]
      rfl
    have hbc : bucketCount st tag val = ((alLookup val m).getD ⟨0, []⟩).count := by
      unfold bucketCount
      rw [hb, getD_bucket_count]
    have hbds : bucketDates st tag val = ((alLookup val m).getD ⟨0, []⟩).dates := by
      unfold bucketDates
      rw [hb, getD_bucket_dates]
    rw [key, innerFold_lookup _ _ _ _ hes, hcontr, hpfc, hbc, hbds, hb]
    by_cases hmem : val ∈ alKeys ((alLookup tag agg.prizesAgg).getD [])
    · rw [if_pos hmem, if_pos (show
        decide (val ∈ alKeys ((alLookup tag agg.prizesAgg).getD [])) = true by
          simpa using hmem)]
    · rw [if_neg hmem, if_neg (show
        ¬decide (val ∈ alKeys ((alLookup tag agg.prizesAgg).getD [])) = true by
          simpa using hmem)]

/-- Folding a date selection: the bucket count accumulates every selected
date's per-file count (uncapped), and the date list extends by the
contributing dates up to the remaining capacity. -/
theorem foldl_processDate_bucket (store : List (Str × DrawAggregate))
    (selected : List Str) (st : CombState) (tag val : Str)
    (htag : tag ∈ PRIZE_LIST) (hk : alKeys st.counts = PRIZE_LIST)
    (hwf : storeWF store) :
    bucketCount (selected.foldl (processDate store) st) tag val
      = bucketCount st tag val
        + (selected.map fun d => perFileCount store d tag val).sum ∧
    bucketDates (selected.foldl (processDate store) st) tag val
      = bucketDates st tag val
        ++ (selected.filter (contributes store tag val)).take
            (MAX_DATES_RECORD - (bucketDates st tag val).length) := by
  induction selected generalizing st with
  | nil => exact ⟨by simp, by simp⟩
  | cons d selected ih =>
    rw [List.foldl_cons, List.map_cons, List.sum_cons, List.filter_cons]
    have hk1 : alKeys (processDate store st d).counts = PRIZE_LIST := by
      rw [processDate_counts_keys]
      exact hk
    obtain ⟨ihc, ihd⟩ := ih (processDate store st d) hk1
    have hbd := processDate_bucketOf store st d tag val htag hk hwf
    by_cases hc : contributes store tag val d = true
    · rw [if_pos hc] at hbd
      have hcount : bucketCount (processDate store st d) tag val
          = bucketCount st tag val + perFileCount store d tag val := by
        unfold bucketCount
        rw [hbd]
        rfl
      have hdates : bucketDates (processDate store st d) tag val
          = if (bucketDates st tag val).length < MAX_DATES_RECORD
            then bucketDates st tag val ++ [d] else bucketDates st tag val := by
        unfold bucketDates
        rw [hbd]
        rfl
      constructor
      · rw [ihc, hcount]
        omega
      · rw [ihd, hdates, if_pos hc]
        by_cases hlen : (bucketDates st tag val).length < MAX_DATES_RECORD
        · rw [if_pos hlen]
          have h1 : MAX_DATES_RECORD - (bucketDates st tag val).length
              = (MAX_DATES_RECORD - (bucketDates st tag val ++ [d]).length) + 1 := by
            rw [List.length_append]
            simp only [List.length_cons, List.length_nil]
            omega
          rw [h1, List.take_succ_cons, List.append_assoc]
          rfl
        · rw [if_neg hlen]
          have h0 : MAX_DATES_RECORD - (bucketDates st tag val).length = 0 := by
            omega
          rw [h0]
          simp
    · rw [if_neg hc] at hbd
      have hcount : bucketCount (processDate store st d) tag val
          = bucketCount st tag val := by
        unfold bucketCount
        rw [hbd]
      have hdates : bucketDates (processDate store st d) tag val
          = bucketDates st tag val := by
        unfold bucketDates
        rw [hbd]
      have hpf : perFileCount store d tag val = 0 :=
        perFileCount_eq_zero_of_not_contributes store d tag val
          (Bool.not_eq_true _ ▸ (by simpa using hc))
      refine ⟨?_, ?_⟩
      · rw [ihc, hcount, hpf]
        omega
      · rw [ihd, hdates, if_neg hc]

theorem resetCounts_counts_keys : alKeys resetCounts.counts = PRIZE_LIST := by
  unfold resetCounts
  exact alKeys_map_pair _ _

theorem resetCounts_bucketOf (tag val : Str) (htag : tag ∈ PRIZE_LIST) :
    bucketOf resetCounts tag val = none := by
  unfold bucketOf resetCounts
  dsimp only
  rw [alLookup_map_of_mem _ _ _ htag]
  rfl

/-- The merged total for a value over a date selection is exactly the sum of
the per-file counts over the selected dates. -/
theorem combine_bucketCount (selected : List Str)
    (store : List (Str × DrawAggregate)) (tag val : Str)
    (htag : tag ∈ PRIZE_LIST) (hwf : storeWF store) :
    bucketCount (combineAggregatesForDates selected store) tag val
      = (selected.map fun d => perFileCount store d tag val).sum := by
  unfold combineAggregatesForDates
  have h := (foldl_processDate_bucket store selected resetCounts tag val htag
    resetCounts_counts_keys hwf).1
  rw [h]
  have h0 : bucketCount resetCounts tag val = 0 := by
    unfold bucketCount
    rw [resetCounts_bucketOf tag val htag]
    rfl
  rw [h0]
  omega

/-- The merged contributing-date list is the first (at most 50) selected
dates, in fold order, whose per-file map contains the value. -/
theorem combine_bucketDates (selected : List Str)
    (store : List (Str × DrawAggregate)) (tag val : Str)
    (htag : tag ∈ PRIZE_LIST) (hwf : storeWF store) :
    bucketDates (combineAggregatesForDates selected store) tag val
      = (selected.filter (contributes store tag val)).take MAX_DATES_RECORD := by
  unfold combineAggregatesForDates
  have h := (foldl_processDate_bucket store selected resetCounts tag val htag
    resetCounts_counts_keys hwf).2
  rw [h]
  have h0 : bucketDates resetCounts tag val = [] := by
    unfold bucketDates
    rw [resetCounts_bucketOf tag val htag]
    rfl
  rw [h0]
  simp

/-! ## Claim theorems: Merge Engine -/

/-- C3: for every selected date list and store, the Merge Engine's total
count for a `(category, value)` pair equals the sum of that value's per-file
counts over exactly the selected dates present in the store (dates absent
from the store contribute 0; no double counting, no omission), and the total
is invariant under reordering of the selected dates. -/
theorem C3_merge_totals (selected selectedPerm : List Str)
    (store : List (Str × DrawAggregate)) (tag val : Str)
    (htag : tag ∈ PRIZE_LIST) (hwf : storeWF store)
    (hperm : selectedPerm.Perm selected) :
    bucketCount (combineAggregatesForDates selected store) tag val
      = (selected.map fun d => perFileCount store d tag val).sum ∧
    bucketCount (combineAggregatesForDates selectedPerm store) tag val
      = bucketCount (combineAggregatesForDates selected store) tag val := by
  refine ⟨combine_bucketCount selected store tag val htag hwf, ?_⟩
  rw [combine_bucketCount selected store tag val htag hwf,
    combine_bucketCount selectedPerm store tag val htag hwf]
  exact (hperm.map fun d => perFileCount store d tag val).sum_eq

/-- C3, witness: on the synthetic three-date store, value `111111` of
category `FIRST` totals 1 + 3 + 0 = 4. -/
theorem C3_merge_totals_witness :
    str "FIRST" ∈ PRIZE_LIST ∧
    bucketCount
        (combineAggregatesForDates
          [str "2020-01-01", str "2020-01-16", str "2020-02-01"] sampleStore)
        (str "FIRST") (str "111111") = 4 :=
  ⟨by decide, by
    have h := (C3_merge_totals
      [str "2020-01-01", str "2020-01-16", str "2020-02-01"]
      [str "2020-02-01", str "2020-01-01", str "2020-01-16"] sampleStore
      (str "FIRST") (str "111111") (by decide) (by decide) (by decide)).1
    rw [h]
    decide⟩

/-- C5: a merged value's contributing-date list is exactly the first (in
fold order) selected dates whose per-file map contains the value, up to the
cap of `MAX_DATES_RECORD = 50`; hence it never exceeds the cap, contains
each date at most once (for duplicate-free selections), while the count
keeps accumulating uncapped. -/
theorem C5_contributing_dates (selected : List Str)
    (store : List (Str × DrawAggregate)) (tag val : Str)
    (htag : tag ∈ PRIZE_LIST) (hwf : storeWF store) :
    bucketDates (combineAggregatesForDates selected store) tag val
      = (selected.filter (contributes store tag val)).take MAX_DATES_RECORD ∧
    (bucketDates (combineAggregatesForDates selected store) tag val).length
      ≤ MAX_DATES_RECORD ∧
    (selected.Nodup →
      (bucketDates (combineAggregatesForDates selected store) tag val).Nodup) ∧
    bucketCount (combineAggregatesForDates selected store) tag val
      = (selected.map fun d => perFileCount store d tag val).sum := by
  have hd := combine_bucketDates selected store tag val htag hwf
  have hsub : List.Sublist
      ((selected.filter (contributes store tag val)).take MAX_DATES_RECORD)
      selected :=
    (List.take_sublist _ _).trans (List.filter_sublist _)
  refine ⟨hd, ?_, ?_, combine_bucketCount selected store tag val htag hwf⟩
  · rw [hd, List.length_take]
    exact Nat.min_le_left ..
  · intro hnd
    rw [hd]
    exact hnd.sublist hsub

/-- C5, witness: on the synthetic three-date store, value `222222` of
category `FIRST` is contributed by its two containing dates, in order. -/
theorem C5_contributing_dates_witness :
    str "FIRST" ∈ PRIZE_LIST ∧
    bucketDates
        (combineAggregatesForDates
          [str "2020-01-01", str "2020-01-16", str "2020-02-01"] sampleStore)
        (str "FIRST") (str "222222")
      = [str "2020-01-01", str "2020-02-01"] :=
  ⟨by decide, by
    have h := (C5_contributing_dates
      [str "2020-01-01", str "2020-01-16", str "2020-02-01"] sampleStore
      (str "FIRST") (str "222222") (by decide) (by decide)).1
    rw [h]
    decide⟩

/-! ## Fetch Scheduler lemmas -/

theorem alContains_eq_false_iff {K V : Type} [DecidableEq K] {k : K}
    {l : List (K × V)} : alContains k l = false ↔ alLookup k l = none := by
  unfold alContains
  cases h : alLookup k l <;> simp

/-- A network retrieval is issued for a candidate exactly when it is a
candidate absent from the post-cache store. -/
theorem mem_fetchedDates (now : Nat) (cached : Option CacheBlob)
    (candidateList : List Str) (recentLimit : Nat) (c : Str) :
    c ∈ fetchedDates (progressiveFetchPlan now cached candidateList recentLimit) ↔
      (c ∈ candidateList ∧ alLookup c (acceptCache now cached) = none) := by
  unfold progressiveFetchPlan fetchedDates
  dsimp only
  rw [List.mem_append, List.mem_filter, List.mem_filter]
  have hperm : (candidateList.insertionSort strLe).Perm candidateList :=
    List.perm_insertionSort strLe candidateList
  constructor
  · rintro (⟨hc, hp⟩ | ⟨hc, hp⟩)
    · refine ⟨hperm.mem_iff.1 (List.mem_of_mem_drop hc), ?_⟩
      rw [← alContains_eq_false_iff]
      simpa using hp
    · refine ⟨hperm.mem_iff.1 (List.mem_of_mem_take hc), ?_⟩
      rw [← alContains_eq_false_iff]
      simpa using hp
  · rintro ⟨hc, hl⟩
    have habs : (!alContains c (acceptCache now cached)) = true := by
      rw [← alContains_eq_false_iff] at hl
      simp [hl]
    have hc' : c ∈ candidateList.insertionSort strLe := hperm.mem_iff.2 hc
    rw [← List.take_append_drop
      ((candidateList.insertionSort strLe).length - recentLimit)
      (candidateList.insertionSort strLe), List.mem_append] at hc'
    rcases hc' with h | h
    · exact Or.inr ⟨h, habs⟩
    · exact Or.inl ⟨h, habs⟩

theorem fetchPlan_store (now : Nat) (cached : Option CacheBlob)
    (candidateList : List Str) (recentLimit : Nat) :
    (progressiveFetchPlan now cached candidateList recentLimit).store
      = acceptCache now cached := by
  unfold progressiveFetchPlan
  rfl

/-! ## Claim theorems: Fetch Scheduler / Persistence Cache -/

/-- C7: with a fresh cache snapshot (non-zero timestamp within 24 hours of
now) the store is initialised from the snapshot and a network retrieval is
issued exactly for the candidates absent from it — none for candidates
already present; with a stale or absent snapshot the store starts empty and
every candidate becomes a fetch target. -/
theorem C7_cache_freshness (now : Nat) (cached : Option CacheBlob)
    (candidateList : List Str) (recentLimit : Nat) :
    (∀ cb, cached = some cb → cb.fetchedAt ≠ 0 →
      now - cb.fetchedAt < CACHE_TTL_MS →
      (progressiveFetchPlan now cached candidateList recentLimit).store = cb.data ∧
      (∀ c, c ∈ fetchedDates (progressiveFetchPlan now cached candidateList recentLimit)
        ↔ (c ∈ candidateList ∧ alLookup c cb.data = none))) ∧
    ((∀ cb, cached = some cb →
        cb.fetchedAt = 0 ∨ ¬now - cb.fetchedAt < CACHE_TTL_MS) →
      (progressiveFetchPlan now cached candidateList recentLimit).store = [] ∧
      (∀ c, c ∈ fetchedDates (progressiveFetchPlan now cached candidateList recentLimit)
        ↔ c ∈ candidateList)) := by
  constructor
  · intro cb hcb h1 h2
    have hacc : acceptCache now cached = cb.data := by
      rw [hcb]
      show (if cb.fetchedAt ≠ 0 ∧ now - cb.fetchedAt < CACHE_TTL_MS
        then cb.data else []) = cb.data
      rw [if_pos ⟨h1, h2⟩]
    refine ⟨by rw [fetchPlan_store, hacc], fun c => ?_⟩
    rw [mem_fetchedDates, hacc]
  · intro hstale
    have hacc : acceptCache now cached = [] := by
      cases hcb : cached with
      | none => rfl
      | some cb =>
        show (if cb.fetchedAt ≠ 0 ∧ now - cb.fetchedAt < CACHE_TTL_MS
          then cb.data else []) = []
        rcases hstale cb hcb with h | h
        · rw [if_neg (by simp [h])]
        · rw [if_neg (by simp [h])]
    refine ⟨by rw [fetchPlan_store, hacc], fun c => ?_⟩
    rw [mem_fetchedDates, hacc]
    simp [alLookup]

/-- C7, witness: with a fresh snapshot holding `2020-01-01`, that candidate
is not fetched while the absent candidate `2020-09-09` is. -/
theorem C7_cache_freshness_witness :
    (progressiveFetchPlan 2000 (some ⟨1000, sampleStore⟩)
        [str "2020-01-01", str "2020-09-09"] 1).store = sampleStore ∧
    str "2020-09-09" ∈ fetchedDates (progressiveFetchPlan 2000
        (some ⟨1000, sampleStore⟩) [str "2020-01-01", str "2020-09-09"] 1) ∧
    str "2020-01-01" ∉ fetchedDates (progressiveFetchPlan 2000
        (some ⟨1000, sampleStore⟩) [str "2020-01-01", str "2020-09-09"] 1) := by
  have h := (C7_cache_freshness 2000 (some ⟨1000, sampleStore⟩)
    [str "2020-01-01", str "2020-09-09"] 1).1 ⟨1000, sampleStore⟩ rfl
    (by decide) (by decide)
  refine ⟨h.1, (h.2 _).2 ⟨by decide, by decide⟩, fun hmem => ?_⟩
  have hx := (h.2 _).1 hmem
  exact absurd hx.2 (by decide)

/-! ## Calendar lemmas (for the Candidate Enumerator) -/

theorem ymdLe_refl (a : YMD) : ymdLe a a := by
  unfold ymdLe
  omega

theorem ymdLe_of_lt {a b : YMD} (h : ymdLt a b) : ymdLe a b := by
  unfold ymdLe
  unfold ymdLt at h
  omega

theorem ymdLe_trans {a b c : YMD} (h1 : ymdLe a b) (h2 : ymdLe b c) :
    ymdLe a c := by
  unfold ymdLe at *
  omega

theorem ymdLt_of_le_of_ne {a b : YMD} (h : ymdLe a b) (hne : a ≠ b) :
    ymdLt a b := by
  obtain ⟨ay, am, ad⟩ := a
  obtain ⟨by1, bm, bd⟩ := b
  have hne2 : ¬(ay = by1 ∧ am = bm ∧ ad = bd) := by
    intro hh
    exact hne (by simp [hh.1, hh.2.1, hh.2.2])
  simp only [ymdLe] at h
  simp only [ymdLt]
  omega

theorem ymdLt_le_trans {a b c : YMD} (h1 : ymdLt a b) (h2 : ymdLe b c) :
    ymdLt a c := by
  unfold ymdLt at *
  unfold ymdLe at h2
  omega

theorem daysInMonth_pos (y m : Nat) : 0 < daysInMonth y m := by
  unfold daysInMonth
  split_ifs <;> omega

theorem daysInMonth_le_31 (y m : Nat) : daysInMonth y m ≤ 31 := by
  unfold daysInMonth
  split_ifs <;> omega

theorem addOneDay_valid {x : YMD} (h : validYMD x) :
    validYMD (addOneDay x) := by
  unfold addOneDay
  unfold validYMD at h
  split_ifs with h1 h2
  · unfold validYMD
    dsimp only
    omega
  · unfold validYMD
    dsimp only
    have hp := daysInMonth_pos x.y (x.m + 1)
    omega
  · unfold validYMD
    dsimp only
    have hp := daysInMonth_pos (x.y + 1) 1
    omega

theorem ymdLt_addOneDay (x : YMD) : ymdLt x (addOneDay x) := by
  unfold addOneDay
  split_ifs with h1 h2
  · unfold ymdLt
    dsimp only
    omega
  · unfold ymdLt
    dsimp only
    omega
  · unfold ymdLt
    dsimp only
    omega

theorem ymdIdx_addOneDay {x : YMD} (h : validYMD x) :
    ymdIdx x + 1 ≤ ymdIdx (addOneDay x) := by
  unfold addOneDay
  unfold validYMD at h
  have h31 := daysInMonth_le_31 x.y x.m
  split_ifs with h1 h2
  · unfold ymdIdx
    dsimp only
    omega
  · unfold ymdIdx
    dsimp only
    omega
  · unfold ymdIdx
    dsimp only
    omega

theorem ymdIdx_mono {a b : YMD} (ha : validYMD a) (hb : validYMD b)
    (h : ymdLe a b) : ymdIdx a ≤ ymdIdx b := by
  unfold validYMD at ha hb
  unfold ymdLe at h
  unfold ymdIdx
  have h31a := daysInMonth_le_31 a.y a.m
  have h31b := daysInMonth_le_31 b.y b.m
  omega

theorem addOneDay_le_of_lt {x z : YMD} (hx : validYMD x) (hz : validYMD z)
    (h : ymdLt x z) : ymdLe (addOneDay x) z := by
  unfold validYMD at hx hz
  unfold addOneDay
  unfold ymdLt at h
  split_ifs with h1 h2
  · unfold ymdLe
    dsimp only
    omega
  · unfold ymdLe
    dsimp only
    rcases h with hy | ⟨hy, hm | ⟨hm, hd⟩⟩
    · omega
    · omega
    · have heq : daysInMonth z.y z.m = daysInMonth x.y x.m := by
        rw [← hy, ← hm]
      omega
  · unfold ymdLe
    dsimp only
    rcases h with hy | ⟨hy, hm | ⟨hm, hd⟩⟩
    · omega
    · omega
    · have heq : daysInMonth z.y z.m = daysInMonth x.y x.m := by
        rw [← hy, ← hm]
      omega

/-- Characterisation of the day walk: with enough fuel, it visits exactly
the valid dates between its bounds. -/
theorem dayWalkF_mem (n : Nat) (cur e : YMD) (hc : validYMD cur)
    (he : validYMD e) (hfuel : ymdIdx e + 1 - ymdIdx cur ≤ n) (x : YMD) :
    x ∈ dayWalkF n cur e ↔ (validYMD x ∧ ymdLe cur x ∧ ymdLe x e) := by
  induction n generalizing cur with
  | zero =>
    simp only [dayWalkF, List.not_mem_nil, false_iff]
    rintro ⟨hv, hcx, hxe⟩
    have hmono := ymdIdx_mono hc he (ymdLe_trans hcx hxe)
    omega
  | succ n ih =>
    unfold dayWalkF
    by_cases hle : ymdLe cur e
    · rw [if_pos hle]
      have hfuel2 : ymdIdx e + 1 - ymdIdx (addOneDay cur) ≤ n := by
        have := ymdIdx_addOneDay hc
        omega
      simp only [List.mem_cons]
      constructor
      · rintro (rfl | hx)
        · exact ⟨hc, ymdLe_refl _, hle⟩
        · obtain ⟨hv, h1', h2'⟩ :=
            (ih (addOneDay cur) (addOneDay_valid hc) hfuel2).1 hx
          exact ⟨hv, ymdLe_trans (ymdLe_of_lt (ymdLt_addOneDay cur)) h1', h2'⟩
      · rintro ⟨hv, hcx, hxe⟩
        by_cases hxc : x = cur
        · exact Or.inl hxc
        · refine Or.inr ((ih (addOneDay cur) (addOneDay_valid hc) hfuel2).2
            ⟨hv, ?_, hxe⟩)
          exact addOneDay_le_of_lt hc hv
            (ymdLt_of_le_of_ne hcx fun he2 => hxc he2.symm)
    · rw [if_neg hle]
      simp only [List.not_mem_nil, false_iff]
      rintro ⟨hv, hcx, hxe⟩
      exact hle (ymdLe_trans hcx hxe)

/-- The day walk is strictly increasing. -/
theorem dayWalkF_pairwise (n : Nat) (cur e : YMD) (hc : validYMD cur)
    (he : validYMD e) (hfuel : ymdIdx e + 1 - ymdIdx cur ≤ n) :
    (dayWalkF n cur e).Pairwise ymdLt := by
  induction n generalizing cur with
  | zero => exact List.Pairwise.nil
  | succ n ih =>
    unfold dayWalkF
    split_ifs with hle
    · have hfuel2 : ymdIdx e + 1 - ymdIdx (addOneDay cur) ≤ n := by
        have := ymdIdx_addOneDay hc
        omega
      refine List.Pairwise.cons (fun x hx => ?_)
        (ih (addOneDay cur) (addOneDay_valid hc) hfuel2)
      obtain ⟨hv, h1', h2'⟩ :=
        (dayWalkF_mem n (addOneDay cur) e (addOneDay_valid hc) he hfuel2 x).1 hx
      exact ymdLt_le_trans (ymdLt_addOneDay cur) h1'
    · exact List.Pairwise.nil

/-- The CSV-page enumeration contains exactly the calendar dates from the
epoch through today whose day-of-month is allow-listed. -/
theorem buildCandidateUrlsCsv_mem (today : YMD) (ht : validYMD today)
    (x : YMD) :
    x ∈ buildCandidateUrlsCsv today ↔
      (validYMD x ∧ ymdLe FIXED_START x ∧ ymdLe x today ∧ x.d ∈ DRAW_DAYS) := by
  unfold buildCandidateUrlsCsv datesFromTo
  rw [List.mem_filter,
    dayWalkF_mem _ FIXED_START today (by decide) ht (Nat.le_refl _) x]
  simp only [decide_eq_true_eq]
  tauto

/-- The CSV-page enumeration is strictly ascending. -/
theorem buildCandidateUrlsCsv_sorted (today : YMD) (ht : validYMD today) :
    (buildCandidateUrlsCsv today).Pairwise ymdLt := by
  unfold buildCandidateUrlsCsv datesFromTo
  exact (dayWalkF_pairwise _ FIXED_START today (by decide) ht
    (Nat.le_refl _)).filter _

/-- The main script's grid enumeration: every (year, month, allow-day)
combination from 2006 through the current year, excluding only the pre-epoch
days of December 2006. -/
theorem buildCandidateUrls_mem (todayY : Nat) (x : YMD) :
    x ∈ buildCandidateUrls todayY ↔
      (2006 ≤ x.y ∧ x.y ≤ todayY ∧ 1 ≤ x.m ∧ x.m ≤ 12 ∧ x.d ∈ DRAW_DAYS ∧
        ¬(x.y = 2006 ∧ x.m = 12 ∧ x.d < 30)) := by
  unfold buildCandidateUrls
  simp only [List.mem_flatMap, List.mem_range'_1, List.mem_filterMap]
  constructor
  · rintro ⟨y, hy, m, hm, d, hd, hite⟩
    by_cases hc : y = 2006 ∧ m = 12 ∧ d < 30
    · rw [if_pos hc] at hite
      cases hite
    · rw [if_neg hc] at hite
      have hx : (⟨y, m, d⟩ : YMD) = x := by
        simpa using hite
      have hxy : x.y = y := by rw [← hx]
      have hxm : x.m = m := by rw [← hx]
      have hxd : x.d = d := by rw [← hx]
      refine ⟨by omega, by omega, by omega, by omega,
        by rw [hxd]; exact hd, ?_⟩
      intro hcc
      exact hc ⟨by omega, by omega, by omega⟩
  · rintro ⟨h1, h2, h3, h4, h5, h6⟩
    exact ⟨x.y, by omega, x.m, by omega, x.d, h5, by rw [if_neg h6]⟩

/-! ## Claim theorems: Candidate Enumerator -/

set_option maxRecDepth 4000 in
/-- C4, counterexample: the main script's `buildCandidateUrls` (run on the
epoch day itself, current date 2006-12-30) emits `2006-01-30`, a calendar
date BEFORE the epoch 2006-12-30; it also emits `2006-12-31`, which is after
the current date, and `2006-02-30`, which is not a calendar date at all.
This refutes the claim for the cited main-script enumerator. -/
theorem C4_counterexample :
    (⟨2006, 1, 30⟩ : YMD) ∈ buildCandidateUrls 2006 ∧
    ymdLt ⟨2006, 1, 30⟩ FIXED_START ∧
    (⟨2006, 12, 31⟩ : YMD) ∈ buildCandidateUrls 2006 ∧
    ymdLt ⟨2006, 12, 30⟩ ⟨2006, 12, 31⟩ ∧
    (⟨2006, 2, 30⟩ : YMD) ∈ buildCandidateUrls 2006 ∧
    ¬validYMD ⟨2006, 2, 30⟩ := by
  refine ⟨by decide, by decide, by decide, by decide, by decide, by decide⟩

/-- C4, amended: the CSV-page variant of `buildCandidateUrls` produces
exactly the calendar dates from the epoch 2006-12-30 through the current
date whose day-of-month is in the allow-list, in strictly ascending order;
the main script's variant instead produces the full year×month×allow-day
grid from 2006 through the current year, excluding only the pre-epoch days
of December 2006 — a superset that also contains pre-epoch dates
(January–November 2006), dates after the current date, and non-calendar
combinations. -/
theorem C4_candidate_enumeration (todayY : Nat) (today : YMD)
    (ht : validYMD today) :
    (∀ x : YMD, x ∈ buildCandidateUrls todayY ↔
      (2006 ≤ x.y ∧ x.y ≤ todayY ∧ 1 ≤ x.m ∧ x.m ≤ 12 ∧ x.d ∈ DRAW_DAYS ∧
        ¬(x.y = 2006 ∧ x.m = 12 ∧ x.d < 30))) ∧
    (∀ x : YMD, x ∈ buildCandidateUrlsCsv today ↔
      (validYMD x ∧ ymdLe FIXED_START x ∧ ymdLe x today ∧ x.d ∈ DRAW_DAYS)) ∧
    (buildCandidateUrlsCsv today).Pairwise ymdLt :=
  ⟨fun x => buildCandidateUrls_mem todayY x,
   fun x => buildCandidateUrlsCsv_mem today ht x,
   buildCandidateUrlsCsv_sorted today ht⟩

/-- C4, witness: with today = 2007-01-20, the CSV-page enumeration contains
2007-01-16. -/
theorem C4_candidate_enumeration_witness :
    (⟨2007, 1, 16⟩ : YMD) ∈ buildCandidateUrlsCsv ⟨2007, 1, 20⟩ :=
  ((C4_candidate_enumeration 2007 ⟨2007, 1, 20⟩ (by decide)).2.1
    ⟨2007, 1, 16⟩).2 ⟨by decide, by decide, by decide, by decide⟩

/-! ## String lemmas for the CSV export -/

theorem wsTokensAux_mem (l : Str) :
    ∀ cur, (∀ c ∈ cur, isWsChar c = false) →
      ∀ t ∈ wsTokensAux l cur, t ≠ [] ∧ ∀ c ∈ t, isWsChar c = false := by
  induction l with
  | nil =>
    intro cur hcur t ht
    unfold wsTokensAux at ht
    by_cases hc : cur = []
    · rw [if_pos hc] at ht
      cases ht
    · rw [if_neg hc] at ht
      rcases List.mem_singleton.1 ht with rfl
      refine ⟨by simpa using hc, fun c hcm => hcur c (by simpa using hcm)⟩
  | cons a l ih =>
    intro cur hcur t ht
    unfold wsTokensAux at ht
    by_cases ha : isWsChar a = true
    · rw [if_pos ha] at ht
      by_cases hc : cur = []
      · rw [if_pos hc] at ht
        exact ih [] (by simp) t ht
      · rw [if_neg hc] at ht
        rcases List.mem_cons.1 ht with rfl | h
        · refine ⟨by simpa using hc, fun c hcm => hcur c (by simpa using hcm)⟩
        · exact ih [] (by simp) t h
    · rw [if_neg ha] at ht
      refine ih (a :: cur) ?_ t ht
      intro c hcm
      rcases List.mem_cons.1 hcm with rfl | h
      · simpa using ha
      · exact hcur c h

/-- Tokens produced by the whitespace split are non-empty and contain no
whitespace. -/
theorem wsTokens_mem (l : Str) :
    ∀ t ∈ wsTokens l, t ≠ [] ∧ ∀ c ∈ t, isWsChar c = false :=
  wsTokensAux_mem l [] (by simp)

theorem dropWhile_eq_self_of_all {p : Char → Bool} {l : Str}
    (h : ∀ c ∈ l, p c = false) : l.dropWhile p = l := by
  cases l with
  | nil => rfl
  | cons a t =>
    rw [List.dropWhile_cons_of_neg (by simp [h a (List.mem_cons_self ..)])]

theorem trim_of_wsFree {l : Str} (h : ∀ c ∈ l, isWsChar c = false) :
    trim l = l := by
  unfold trim
  rw [dropWhile_eq_self_of_all h,
    dropWhile_eq_self_of_all (fun c hc => h c (by simpa using hc)),
    List.reverse_reverse]

theorem trim_cons_ws {l : Str} {a : Char} (ha : isWsChar a = true) :
    trim (a :: l) = trim l := by
  unfold trim
  rw [List.dropWhile_cons_of_pos ha]

theorem splitOnChar_cons (c a : Char) (rest : Str) :
    splitOnChar c (a :: rest) =
      if a = c then [] :: splitOnChar c rest
      else
        match splitOnChar c rest with
        | [] => [[a]]
        | h :: t => (a :: h) :: t := by
  conv_lhs => unfold splitOnChar

theorem splitOnChar_ne_nil (c : Char) (l : Str) : splitOnChar c l ≠ [] := by
  cases l with
  | nil => simp [splitOnChar]
  | cons a rest =>
    rw [splitOnChar_cons]
    by_cases h : a = c
    · simp [h]
    · rw [if_neg h]
      cases hs : splitOnChar c rest <;> simp

theorem splitOnChar_of_not_mem {c : Char} {l : Str} (h : c ∉ l) :
    splitOnChar c l = [l] := by
  induction l with
  | nil => rfl
  | cons a rest ih =>
    have ha : ¬a = c := fun he => h (by simp [he])
    have hrest : c ∉ rest := fun hm => h (List.mem_cons_of_mem _ hm)
    rw [splitOnChar_cons, if_neg ha, ih hrest]

theorem splitOnChar_append {c : Char} {v rest : Str} (h : c ∉ v) :
    splitOnChar c (v ++ c :: rest) = v :: splitOnChar c rest := by
  induction v with
  | nil =>
    simp only [List.nil_append]
    rw [splitOnChar_cons, if_pos rfl]
  | cons a v ih =>
    have ha : ¬a = c := fun he => h (by simp [he])
    have hv : c ∉ v := fun hm => h (List.mem_cons_of_mem _ hm)
    simp only [List.cons_append]
    rw [splitOnChar_cons, if_neg ha, ih hv]

/-- Round trip: splitting the comma-join of non-empty, comma-free,
whitespace-free values at commas and trimming recovers the values. -/
theorem csvFields_joinWith (vals : List Str)
    (hne : ∀ v ∈ vals, v ≠ [])
    (hcf : ∀ v ∈ vals, ',' ∉ v)
    (hwf : ∀ v ∈ vals, ∀ ch ∈ v, isWsChar ch = false) :
    csvFields (joinWith (str ", ") vals) = vals := by
  induction vals with
  | nil => decide
  | cons v vals ih =>
    cases vals with
    | nil =>
      show csvFields (joinWith (str ", ") [v]) = [v]
      unfold csvFields
      rw [show joinWith (str ", ") [v] = v from rfl,
        splitOnChar_of_not_mem (hcf v (List.mem_cons_self ..)),
        List.map_cons, List.map_nil,
        trim_of_wsFree (hwf v (List.mem_cons_self ..)),
        List.filter_cons_of_pos (by simpa using hne v (List.mem_cons_self ..))]
      rfl
    | cons w vals2 =>
      have hj : joinWith (str ", ") (v :: w :: vals2)
          = v ++ ',' :: ' ' :: joinWith (str ", ") (w :: vals2) := by
        show (v ++ str ", ") ++ joinWith (str ", ") (w :: vals2) = _
        rw [List.append_assoc]
        rfl
      unfold csvFields
      rw [hj, splitOnChar_append (hcf v (List.mem_cons_self ..))]
      have hsp : splitOnChar ',' (' ' :: joinWith (str ", ") (w :: vals2))
          = match splitOnChar ',' (joinWith (str ", ") (w :: vals2)) with
            | [] => [[' ']]
            | h :: t => (' ' :: h) :: t := by
        rw [splitOnChar_cons, if_neg (by decide)]
      cases hs : splitOnChar ',' (joinWith (str ", ") (w :: vals2)) with
      | nil => exact absurd hs (splitOnChar_ne_nil ',' _)
      | cons h t =>
        rw [hsp, hs]
        have ih2 := ih (fun u hu => hne u (List.mem_cons_of_mem _ hu))
          (fun u hu => hcf u (List.mem_cons_of_mem _ hu))
          (fun u hu => hwf u (List.mem_cons_of_mem _ hu))
        unfold csvFields at ih2
        rw [hs] at ih2
        rw [List.map_cons, List.map_cons,
          trim_of_wsFree (hwf v (List.mem_cons_self ..)),
          show trim (' ' :: h) = trim h from trim_cons_ws (by decide),
          List.filter_cons_of_pos (by simpa using hne v (List.mem_cons_self ..))]
        rw [List.map_cons] at ih2
        rw [ih2]

theorem flatMap_congr_mem {α β : Type} (L : List α) (f g : α → List β)
    (h : ∀ a ∈ L, f a = g a) : L.flatMap f = L.flatMap g := by
  induction L with
  | nil => rfl
  | cons a L ih =>
    rw [List.flatMap_cons, List.flatMap_cons, h a (List.mem_cons_self ..),
      ih (fun b hb => h b (List.mem_cons_of_mem _ hb))]

theorem ymdLe_total (a b : YMD) : ymdLe a b ∨ ymdLe b a := by
  unfold ymdLe
  omega

instance : IsTotal Str csvKeyLe :=
  ⟨fun a b => ymdLe_total (parseDateKey a) (parseDateKey b)⟩

instance : IsTrans Str csvKeyLe :=
  ⟨fun _ _ _ h1 h2 => ymdLe_trans h1 h2⟩

/-- Every accepted value of a line is built from one of the line's tokens
(so it inherits comma- and whitespace-freeness). -/
theorem lineVals_chars (tag line v : Str) (hv : v ∈ lineVals tag line) :
    ∃ tok ∈ wsTokens (trim line), ∀ ch ∈ v, ch ∈ tok := by
  unfold lineVals at hv
  rcases List.mem_map.1 hv with ⟨n, hn, rfl⟩
  have hn2 := (List.mem_filter.1 hn).1
  refine ⟨n, List.mem_of_mem_drop hn2, fun ch hch => ?_⟩
  unfold lastN at hch
  exact List.mem_of_mem_drop hch

/-- The CSV contribution of one date whose text parses with comma-free
tokens: one line per value of the last line bearing the prize tag. -/
theorem csvLineFor_parse (texts : List (Str × Str)) (prize dk t : Str)
    (ht : alLookup dk texts = some t)
    (hcft : ∀ line ∈ (splitLines t).drop 1,
      ∀ tok ∈ wsTokens (trim line), ',' ∉ tok) :
    csvLineFor (texts.map fun p => (p.1, parseTextToAggregate p.1 p.2)) prize dk
      = (lastLineVals t prize).map fun v => v ++ [','] ++ dk := by
  unfold csvLineFor
  rw [alLookup_map_snd dk (fun k txt => parseTextToAggregate k txt) texts, ht]
  show (match alLookup prize (parseTextToAggregate dk t).results with
    | none => ([] : List Str)
    | some r => if r = [] then []
      else (csvFields r).map fun num => num ++ [','] ++ dk) = _
  cases hl : (((splitLines t).drop 1).filter (isTagLine prize)).getLast? with
  | none =>
    have hres : alLookup prize (parseTextToAggregate dk t).results = none := by
      rw [parse_results_lookup dk t prize, hl]
    rw [hres]
    unfold lastLineVals
    rw [hl]
    rfl
  | some l =>
    have hres : alLookup prize (parseTextToAggregate dk t).results
        = some (joinWith (str ", ") (lineVals prize l)) := by
      rw [parse_results_lookup dk t prize, hl]
    rw [hres]
    unfold lastLineVals
    rw [hl]
    show (if joinWith (str ", ") (lineVals prize l) = [] then []
      else (csvFields (joinWith (str ", ") (lineVals prize l))).map
        fun num => num ++ [','] ++ dk)
      = (lineVals prize l).map fun v => v ++ [','] ++ dk
    have hlmem : l ∈ (splitLines t).drop 1 :=
      (List.mem_filter.1 (List.mem_of_mem_getLast? hl)).1
    have hne : ∀ v ∈ lineVals prize l, v ≠ [] :=
      fun v hv => (lineVals_spec prize l v hv).1
    have hcfv : ∀ v ∈ lineVals prize l, ',' ∉ v := by
      intro v hv hcm
      obtain ⟨tok, htok, hsub⟩ := lineVals_chars prize l v hv
      exact hcft l hlmem tok htok (hsub ',' hcm)
    have hwfv : ∀ v ∈ lineVals prize l, ∀ ch ∈ v, isWsChar ch = false := by
      intro v hv ch hch
      obtain ⟨tok, htok, hsub⟩ := lineVals_chars prize l v hv
      exact (wsTokens_mem (trim l) tok htok).2 ch (hsub ch hch)
    cases hv : lineVals prize l with
    | nil => rfl
    | cons v0 vs =>
      have hne0 : v0 ≠ [] := hne v0 (hv ▸ List.mem_cons_self ..)
      have hjoin_ne : joinWith (str ", ") (v0 :: vs) ≠ [] := by
        cases vs with
        | nil => exact hne0
        | cons w ws =>
          show (v0 ++ str ", ") ++ joinWith (str ", ") (w :: ws) ≠ []
          intro hcontra
          rcases List.append_eq_nil.1 hcontra with ⟨h1, _⟩
          rcases List.append_eq_nil.1 h1 with ⟨h2, _⟩
          exact hne0 h2
      rw [if_neg hjoin_ne,
        csvFields_joinWith (v0 :: vs) (hv ▸ hne) (hv ▸ hcfv) (hv ▸ hwfv)]

/-! ## Claim theorems: CSV export -/

/-- C8, counterexample: the CSV export derives its lines from
`displayResults` (which keeps only the LAST line of a repeated tag), so a
file with two `FIRST` lines yields one CSV line although the store records
two accepted occurrences of the category.  This refutes "one line per
accepted value occurrence". -/
theorem C8_counterexample :
    csvLines [(str "2020-01-16",
        parseTextToAggregate (str "2020-01-16")
          (str "h\nFIRST 111111\nFIRST 222222"))] (str "FIRST")
      = [str "222222,2020-01-16"] ∧
    (acceptedVals (str "h\nFIRST 111111\nFIRST 222222") (str "FIRST")).length
      = 2 :=
  ⟨by decide, by decide⟩

/-- C8, amended: for a store of parsed texts whose tokens are comma-free,
the CSV export emits, for each known date in ascending parsed-date order,
one `value,date` line per value of the date's `displayResults` entry for the
category — i.e. per accepted value of the LAST line bearing the tag in that
date's text (equal to all accepted occurrences when each tag occurs on at
most one line per file). -/
theorem C8_csv_export (texts : List (Str × Str)) (prize : Str)
    (hcf : ∀ p ∈ texts, ∀ line ∈ (splitLines p.2).drop 1,
      ∀ tok ∈ wsTokens (trim line), ',' ∉ tok) :
    csvLines (texts.map fun p => (p.1, parseTextToAggregate p.1 p.2)) prize
      = (List.insertionSort csvKeyLe (texts.map (·.1))).flatMap
          (fun dk => (lastLineVals (textOf texts dk) prize).map
            fun v => v ++ [','] ++ dk) ∧
    (List.insertionSort csvKeyLe (texts.map (·.1))).Pairwise csvKeyLe := by
  constructor
  · unfold csvLines
    have hkeys : (texts.map fun p => (p.1, parseTextToAggregate p.1 p.2)).map (·.1)
        = texts.map (·.1) := by
      rw [List.map_map]
      rfl
    rw [hkeys]
    apply flatMap_congr_mem
    intro dk hdk
    have hdk2 : dk ∈ texts.map (·.1) :=
      (List.perm_insertionSort csvKeyLe (texts.map (·.1))).mem_iff.1 hdk
    have hsome : (alLookup dk texts).isSome = true :=
      alLookup_isSome_iff.2 hdk2
    obtain ⟨t, ht⟩ := Option.isSome_iff_exists.1 hsome
    have htx : textOf texts dk = t := by
      unfold textOf
      rw [ht]
      rfl
    rw [htx]
    exact csvLineFor_parse texts prize dk t ht
      (fun line hline tok htok => hcf (dk, t) (alLookup_mem ht) line hline tok htok)
  · exact List.sorted_insertionSort csvKeyLe (texts.map (·.1))

/-- C8, witness: two single-tag files export one line per accepted
occurrence, dates ascending. -/
theorem C8_csv_export_witness :
    csvLines
        [(str "2020-02-01",
          parseTextToAggregate (str "2020-02-01") (str "h\nTWO 12 34")),
         (str "2020-01-16",
          parseTextToAggregate (str "2020-01-16") (str "h\nTWO 56"))]
        (str "TWO")
      = [str "56,2020-01-16", str "12,2020-02-01", str "34,2020-02-01"] := by
  have h := (C8_csv_export
    [(str "2020-02-01", str "h\nTWO 12 34"),
     (str "2020-01-16", str "h\nTWO 56")]
    (str "TWO") (by decide)).1
  exact h.trans (by decide)

/-! ## Agreement of the JS-semantics parser with the simple one -/

theorem processLineJS_no_ghost (agg : DrawAggregate) (line : Str)
    (h : ∀ tag, lineTag? line = some tag → tag ∉ protoKeys) :
    processLineJS agg line = .ok (processLine agg line) := by
  unfold processLineJS processLine
  by_cases ht : trim line = []
  · simp [ht]
  · simp only [if_neg ht]
    cases hw : wsTokens (trim line) with
    | nil => rfl
    | cons tag rest =>
      have htag : tag ∉ protoKeys := h tag (by
        unfold lineTag?
        rw [if_neg ht, hw]
        rfl)
      have hdec : decide (tag ∈ protoKeys) = false := by simpa using htag
      have hne : ¬tag = str "__proto__" := by
        intro he
        exact htag (he ▸ (by decide : str "__proto__" ∈ protoKeys))
      cases hc : alContains tag agg.prizesAgg with
      | false => simp [hdec, hc]
      | true => simp [hdec, hc, hne]

theorem foldlM_processLineJS_no_ghost (lines : List Str) (agg : DrawAggregate)
    (h : ∀ l ∈ lines, ∀ tag, lineTag? l = some tag → tag ∉ protoKeys) :
    lines.foldlM processLineJS agg = .ok (lines.foldl processLine agg) := by
  induction lines generalizing agg with
  | nil => rfl
  | cons l ls ih =>
    rw [List.foldlM_cons, processLineJS_no_ghost agg l
      (fun tag htag => h l (List.mem_cons_self ..) tag htag)]
    show ls.foldlM processLineJS (processLine agg l) = _
    rw [List.foldl_cons]
    exact ih (processLine agg l)
      (fun l2 hl2 tag htag => h l2 (List.mem_cons_of_mem _ hl2) tag htag)

/-- When no data-line tag names an `Object.prototype` property, the
JS-semantics parser succeeds and returns exactly the simple parse. -/
theorem parseJS_no_ghost (dateStr text : Str)
    (h : ∀ tag ∈ fileTags text, tag ∉ protoKeys) :
    parseTextToAggregateJS dateStr text
      = .ok (parseTextToAggregate dateStr text) := by
  unfold parseTextToAggregateJS parseTextToAggregate
  apply foldlM_processLineJS_no_ghost
  intro l hl tag htag
  exact h tag (List.mem_filterMap.2 ⟨l, hl, htag⟩)

/-! ## Claim theorems: Record Parser -/

/-- C2, counterexample: the Record Parser records the 5-character value
`"12345"` for category `FIRST` (fixed length 6), because `slice(-len)`
leaves tokens shorter than the category length untouched.  This refutes the
claim that every recorded value has length exactly the category length. -/
theorem C2_counterexample :
    alLookup (str "FIRST")
        (parseTextToAggregate (str "2020-01-16") (str "h\nFIRST 12345")).prizesAgg
      = some [(str "12345", 1)] ∧
    (str "12345").length ≠ jsLen (str "FIRST") := by
  constructor
  · decide
  · decide

/-- C2, amended: every value string recorded by the Record Parser into
`valueCounts` is non-empty and has length AT MOST the category's fixed
length (equal to it whenever the source token has at least that many
characters; shorter tokens are recorded whole). -/
theorem C2_value_length_bounded (dateStr text tag : Str) (m : List (Str × Nat))
    (hm : alLookup tag (parseTextToAggregate dateStr text).prizesAgg = some m) :
    ∀ e ∈ m, e.1 ≠ [] ∧ e.1.length ≤ jsLen tag :=
  parse_valLenInv dateStr text tag m hm

/-- C2, witness: the amended bound evaluated on a concrete file and entry. -/
theorem C2_value_length_bounded_witness :
    (str "23" : Str) ≠ [] ∧ (str "23").length ≤ jsLen (str "TWO") :=
  C2_value_length_bounded (str "d") (str "h\nTWO 123 45") (str "TWO")
    [(str "23", 1), (str "45", 1)] (by decide) (str "23", 1) (by decide)

/-- C6, counterexample: when a tag occurs on two data lines, the
`displayResults` entry holds only the values of the LAST such line
(`results[tag] = lastVals.join(', ')` overwrites), not the comma-join of all
accepted values of the category. -/
theorem C6_counterexample :
    alLookup (str "FIRST")
        (parseTextToAggregate (str "d") (str "h\nFIRST 111111\nFIRST 222222")).results
      = some (str "222222") ∧
    acceptedVals (str "h\nFIRST 111111\nFIRST 222222") (str "FIRST")
      = [str "111111", str "222222"] ∧
    joinWith (str ", ") [str "111111", str "222222"] ≠ str "222222" := by
  refine ⟨by decide, by decide, by decide⟩

/-- C6, amended: the `displayResults` entry of a recognised tag equals the
comma-joined accepted (post-truncation) values, in original order, of the
LAST non-blank line whose first token is that tag (when the tag occurs on at
most one line this is the comma-join of all the category's accepted values);
it is absent when no such line exists. -/
theorem C6_displayResults_last_line (d t tag : Str) :
    alLookup tag (parseTextToAggregate d t).results =
      match (((splitLines t).drop 1).filter (isTagLine tag)).getLast? with
      | some l => some (joinWith (str ", ") (lineVals tag l))
      | none => none :=
  parse_results_lookup d t tag

/-- C9: the Record Parser is a pure function of the pair (dateStr, text):
its embedding reads no ambient state, so equal inputs give identical
`DrawAggregate` results. -/
theorem C9_parse_deterministic (d₁ d₂ t₁ t₂ : Str) (hd : d₁ = d₂)
    (ht : t₁ = t₂) :
    parseTextToAggregate d₁ t₁ = parseTextToAggregate d₂ t₂ := by
  rw [hd, ht]

/-- C9, witness: determinism evaluated on a concrete file. -/
theorem C9_parse_deterministic_witness :
    parseTextToAggregate (str "2020-01-16") (str "h\nTWO 12") =
      parseTextToAggregate (str "2020-01-16") (str "h\nTWO 12") :=
  C9_parse_deterministic (str "2020-01-16") (str "2020-01-16")
    (str "h\nTWO 12") (str "h\nTWO 12") rfl rfl

/-- C10, counterexample: the Record Parser does NOT succeed on every input.
`!prizesAgg[tag]` is a truthiness check that consults the prototype chain,
so the data line `toString 123456` passes it (`({}).toString` is an
inherited function) and the digit update `digitAgg[tag][i][d]` then
dereferences `undefined` and throws a `TypeError`: the parse of the whole
file fails (the caller catches it and skips the file). -/
theorem C10_counterexample :
    parseTextToAggregateJS (str "2020-01-16") (str "h\ntoString 123456")
      = .error () ∧
    str "toString" ∉ PRIZE_LIST :=
  ⟨rfl, by decide⟩

/-- C10, amended: for every input text (the empty string included) whose
data-line tags avoid the `Object.prototype` property names, the Record
Parser succeeds — agreeing with the simple own-property model — and returns
an aggregate whose `valueCounts` and `digitCounts` have an entry for each of
the nine categories: the key sets are exactly `PRIZE_LIST`, each category's
digit map list has exactly the category's fixed number of positional slots,
and a category absent from the file keeps an empty value map.  (On a line
whose tag names an `Object.prototype` property and carries at least one
value token, the parser instead throws, as the counterexample shows.) -/
theorem C10_parser_totality (dateStr text : Str)
    (hno : ∀ tag ∈ fileTags text, tag ∉ protoKeys) :
    parseTextToAggregateJS dateStr text
      = .ok (parseTextToAggregate dateStr text) ∧
    alKeys (parseTextToAggregate dateStr text).prizesAgg = PRIZE_LIST ∧
    alKeys (parseTextToAggregate dateStr text).digitAgg = PRIZE_LIST ∧
    (∀ p ∈ PRIZE_LIST, ∃ pods,
      alLookup p (parseTextToAggregate dateStr text).digitAgg = some pods ∧
      pods.length = jsLen p) ∧
    (∀ p ∈ PRIZE_LIST, p ∉ fileTags text →
      alLookup p (parseTextToAggregate dateStr text).prizesAgg = some []) :=
  ⟨parseJS_no_ghost dateStr text hno,
    parse_prizesAgg_keys dateStr text, parse_digitAgg_keys dateStr text,
    parse_digitLenInv dateStr text,
    fun p hp habs => parse_absent_empty dateStr text p hp habs⟩

/-- C10, witness: the amended totality evaluated on the empty input text. -/
theorem C10_parser_totality_witness :
    parseTextToAggregateJS (str "d") (str "")
      = .ok (parseTextToAggregate (str "d") (str "")) :=
  (C10_parser_totality (str "d") (str "") (by decide)).1

/-! ## Claim theorems: Date Selector -/

/-- C1: the code diverges from the claim.  In years mode (and months mode)
with anchoring enabled and window value 0, `computeSelectedDatesFromMode`
filters with `x.date >= FIXED_START && x.date <= end` where `end` is left at
`FIXED_START`, so it selects ONLY dates equal to the epoch — not all known
dates from the epoch forward.  Here `2007-01-16 ≥ epoch` is a known date yet
is not selected. -/
theorem C1_anchored_zero_window_selects_only_epoch :
    computeSelectedDatesFromMode TimeMode.years true 1 0 0 ⟨2026, 10, 12⟩
        [⟨str "2006-12-30", ⟨2006, 12, 30⟩⟩, ⟨str "2007-01-16", ⟨2007, 1, 16⟩⟩]
      = [str "2006-12-30"] ∧
    computeSelectedDatesFromMode TimeMode.months true 1 0 0 ⟨2026, 10, 12⟩
        [⟨str "2006-12-30", ⟨2006, 12, 30⟩⟩, ⟨str "2007-01-16", ⟨2007, 1, 16⟩⟩]
      = [str "2006-12-30"] ∧
    ymdLe FIXED_START ⟨2007, 1, 16⟩ := by
  refine ⟨by decide, by decide, by decide⟩

end Thailotto
